import Mathlib

set_option maxRecDepth 100000

/-!
Verification of `src/tools/build_omr_slice.py`: a deterministic, content-addressed
dataset slicing tool.  The Python source is shallowly embedded below:

* JSON-representable values are the inductive `Json` (the tool never passes
  floats to `json.dumps`, so numbers are modelled as integers);
* `json.dumps(obj, sort_keys=True, separators=(",", ":"), ensure_ascii=False)`
  is `dumpChars` / `_canonical_json`;
* `hashlib.sha256(...).hexdigest()` is a full executable SHA-256 over the
  UTF-8 bytes of the input (`_sha256_str`, `_sha256_bytes`);
* upstream rows are association lists from field names to `Json` values, the
  upstream `datasets` provider is an explicit `Dataset` record, and the
  filesystem is an explicit `FS` record threaded through `write_slice`.
-/

/-! ### Python string order (code-point lexicographic comparison on `List Char`)

Python compares `str` values lexicographically by code point; this is the order
`sort_keys=True` and `sorted(...)` use.  `String`'s own `<` in Lean is defined
by well-founded recursion and does not reduce in the kernel, so we use a
structural boolean comparison on the underlying character lists.
-/

/-- Strict code-point lexicographic order on character lists. -/
def charListLt : List Char → List Char → Bool
  | [], [] => false
  | [], _ :: _ => true
  | _ :: _, [] => false
  | a :: as, b :: bs => a.toNat < b.toNat || (a.toNat == b.toNat && charListLt as bs)

/-- Non-strict code-point lexicographic order on character lists. -/
def charListLe (a b : List Char) : Bool := !charListLt b a

/-- String comparison as Python's `<` on `str`. -/
def pyStrLt (a b : String) : Bool := charListLt a.data b.data

/-- String comparison as Python's `<=` on `str`. -/
def pyStrLe (a b : String) : Bool := charListLe a.data b.data

/-! ### Decimal rendering of integers (Python `str(int)` / `repr(int)`) -/

/-- One decimal digit as a character. -/
def decDigit : Nat → Char
  | 0 => '0' | 1 => '1' | 2 => '2' | 3 => '3' | 4 => '4'
  | 5 => '5' | 6 => '6' | 7 => '7' | 8 => '8' | _ => '9'

/-- Fuel-driven digit expansion, most significant digit first. -/
def natDigitsAux : Nat → Nat → List Char
  | 0, _ => []
  | fuel + 1, n => if n < 10 then [decDigit n] else natDigitsAux fuel (n / 10) ++ [decDigit (n % 10)]

/-- Decimal digits of a natural number, as Python renders it. -/
def natDigits (n : Nat) : List Char := natDigitsAux (n + 1) n

/-- Python `str` of an `int`, as a character list. -/
def pyIntChars : Int → List Char
  | .ofNat n => natDigits n
  | .negSucc n => '-' :: natDigits (n + 1)

/-- Python `str` of an `int`. -/
def pyIntStr (i : Int) : String := String.mk (pyIntChars i)

/-- Value of a digit character. -/
def digitVal (c : Char) : Nat := c.toNat - 48

/-- Reading a digit string back as a number (left inverse of `natDigits`). -/
def charsVal (cs : List Char) : Nat := cs.foldl (fun a c => a * 10 + digitVal c) 0

/-! ### Executable SHA-256 (`hashlib.sha256`) -/

/-- Truncation to a 32-bit word. -/
def w32 (n : Nat) : Nat := n % 4294967296

/-- 32-bit right rotation. -/
def rotr32 (x n : Nat) : Nat := w32 ((x >>> n) ||| (x <<< (32 - n)))

def bigSigma0 (x : Nat) : Nat := (rotr32 x 2) ^^^ (rotr32 x 13) ^^^ (rotr32 x 22)

def bigSigma1 (x : Nat) : Nat := (rotr32 x 6) ^^^ (rotr32 x 11) ^^^ (rotr32 x 25)

def smallSigma0 (x : Nat) : Nat := (rotr32 x 7) ^^^ (rotr32 x 18) ^^^ (x >>> 3)

def smallSigma1 (x : Nat) : Nat := (rotr32 x 17) ^^^ (rotr32 x 19) ^^^ (x >>> 10)

def chFn (x y z : Nat) : Nat := (x &&& y) ^^^ ((x ^^^ 4294967295) &&& z)

def majFn (x y z : Nat) : Nat := (x &&& y) ^^^ (x &&& z) ^^^ (y &&& z)

/-- The 64 SHA-256 round constants. -/
def shaK : List Nat :=
  [1116352408, 1899447441, 3049323471, 3921009573, 961987163, 1508970993, 2453635748, 2870763221,
   3624381080, 310598401, 607225278, 1426881987, 1925078388, 2162078206, 2614888103, 3248222580,
   3835390401, 4022224774, 264347078, 604807628, 770255983, 1249150122, 1555081692, 1996064986,
   2554220882, 2821834349, 2952996808, 3210313671, 3336571891, 3584528711, 113926993, 338241895,
   666307205, 773529912, 1294757372, 1396182291, 1695183700, 1986661051, 2177026350, 2456956037,
   2730485921, 2820302411, 3259730800, 3345764771, 3516065817, 3600352804, 4094571909, 275423344,
   430227734, 506948616, 659060556, 883997877, 958139571, 1322822218, 1537002063, 1747873779,
   1955562222, 2024104815, 2227730452, 2361852424, 2428436474, 2756734187, 3204031479, 3329325298]

/-- The eight 32-bit working registers of SHA-256. -/
structure Sha8 where
  a : Nat
  b : Nat
  c : Nat
  d : Nat
  e : Nat
  f : Nat
  g : Nat
  h : Nat

/-- SHA-256 initial hash value. -/
def shaH0 : Sha8 :=
  ⟨1779033703, 3144134277, 1013904242, 2773480762, 1359893119, 2600822924, 528734635, 1541459225⟩

/-- One SHA-256 round. -/
def shaRound (s : Sha8) (kw : Nat × Nat) : Sha8 :=
  let t1 := w32 (s.h + bigSigma1 s.e + chFn s.e s.f s.g + kw.1 + kw.2)
  let t2 := w32 (bigSigma0 s.a + majFn s.a s.b s.c)
  ⟨w32 (t1 + t2), s.a, s.b, s.c, w32 (s.d + t1), s.e, s.f, s.g⟩

/-- Message-schedule extension: append `k` more words to the 16 block words. -/
def msgSchedule : Nat → List Nat → List Nat
  | 0, ws => ws
  | k + 1, ws =>
      let m := ws.length
      msgSchedule k (ws ++ [w32 (smallSigma1 (ws.getD (m - 2) 0) + ws.getD (m - 7) 0 +
        smallSigma0 (ws.getD (m - 15) 0) + ws.getD (m - 16) 0)])

/-- SHA-256 compression of a 16-word block. -/
def compress (H : Sha8) (block : List Nat) : Sha8 :=
  let ws := msgSchedule 48 block
  let s := (shaK.zip ws).foldl shaRound H
  ⟨w32 (H.a + s.a), w32 (H.b + s.b), w32 (H.c + s.c), w32 (H.d + s.d),
   w32 (H.e + s.e), w32 (H.f + s.f), w32 (H.g + s.g), w32 (H.h + s.h)⟩

/-- Split a word list into 16-word blocks (fuel-driven for kernel reduction). -/
def chunk16 : Nat → List Nat → List (List Nat)
  | 0, _ => []
  | _, [] => []
  | fuel + 1, ws => ws.take 16 :: chunk16 fuel (ws.drop 16)

/-- Big-endian 4-byte groups to 32-bit words. -/
def bytesToWords : Nat → List Nat → List Nat
  | 0, _ => []
  | _, [] => []
  | fuel + 1, bs => (bs.getD 0 0 * 16777216 + bs.getD 1 0 * 65536 + bs.getD 2 0 * 256 + bs.getD 3 0) ::
      bytesToWords fuel (bs.drop 4)

/-- 64-bit big-endian encoding of the message bit length. -/
def be64 (n : Nat) : List Nat :=
  [n >>> 56 &&& 255, n >>> 48 &&& 255, n >>> 40 &&& 255, n >>> 32 &&& 255,
   n >>> 24 &&& 255, n >>> 16 &&& 255, n >>> 8 &&& 255, n &&& 255]

/-- SHA-256 padding: `0x80`, zeros to 56 mod 64, then the 64-bit bit length. -/
def shaPad (msg : List Nat) : List Nat :=
  msg ++ 128 :: List.replicate ((119 - msg.length % 64) % 64) 0 ++ be64 (msg.length * 8)

/-- The eight result words of SHA-256 over a byte list. -/
def sha256Words (msg : List Nat) : Sha8 :=
  let padded := shaPad msg
  let words := bytesToWords padded.length padded
  (chunk16 words.length words).foldl compress shaH0

/-- One lowercase hex digit. -/
def hexDigit : Nat → Char
  | 0 => '0' | 1 => '1' | 2 => '2' | 3 => '3' | 4 => '4'
  | 5 => '5' | 6 => '6' | 7 => '7' | 8 => '8' | 9 => '9'
  | 10 => 'a' | 11 => 'b' | 12 => 'c' | 13 => 'd' | 14 => 'e' | _ => 'f'

/-- Eight lowercase hex digits of a 32-bit word. -/
def wordHex (w : Nat) : List Char :=
  [hexDigit (w >>> 28 &&& 15), hexDigit (w >>> 24 &&& 15), hexDigit (w >>> 20 &&& 15),
   hexDigit (w >>> 16 &&& 15), hexDigit (w >>> 12 &&& 15), hexDigit (w >>> 8 &&& 15),
   hexDigit (w >>> 4 &&& 15), hexDigit (w &&& 15)]

/-- The 64-character lowercase hex digest of SHA-256 over a byte list. -/
def sha256HexChars (msg : List Nat) : List Char :=
  let s := sha256Words msg
  wordHex s.a ++ wordHex s.b ++ wordHex s.c ++ wordHex s.d ++
  wordHex s.e ++ wordHex s.f ++ wordHex s.g ++ wordHex s.h

/-- UTF-8 encoding of one character. -/
def utf8Char (c : Char) : List Nat :=
  let n := c.toNat
  if n < 128 then [n]
  else if n < 2048 then [192 ||| (n >>> 6), 128 ||| (n &&& 63)]
  else if n < 65536 then [224 ||| (n >>> 12), 128 ||| ((n >>> 6) &&& 63), 128 ||| (n &&& 63)]
  else [240 ||| (n >>> 18), 128 ||| ((n >>> 12) &&& 63), 128 ||| ((n >>> 6) &&& 63), 128 ||| (n &&& 63)]

/-- UTF-8 encoding of a character list, as a byte list. -/
def utf8Bytes (cs : List Char) : List Nat := (cs.map utf8Char).flatten

/-- `_sha256_bytes` from the source: hex digest of SHA-256 over bytes. -/
def _sha256_bytes (b : List Nat) : String := String.mk (sha256HexChars b)

/-- `_sha256_str` from the source: SHA-256 hex digest of the UTF-8 encoding. -/
def _sha256_str (s : String) : String := String.mk (sha256HexChars (utf8Bytes s.data))

/-- The comparison used on (key, value) pairs by `sort_keys=True`: compare keys as
Python strings. Python never reaches the value component because dict keys are unique. -/
def keyLE {β : Type _} (p q : String × β) : Prop := pyStrLe p.1 q.1 = true

instance {β : Type _} : DecidableRel (keyLE (β := β)) := fun _ _ =>
  inferInstanceAs (Decidable (_ = true))

/-- Python's `<=` on `str`, as a relation for `sorted(...)`. -/
def strLE (a b : String) : Prop := pyStrLe a b = true

instance : DecidableRel strLE := fun _ _ => inferInstanceAs (Decidable (_ = true))

/-- Python's `sorted` on a list of strings (ascending, stable). -/
def pySortedStrings (l : List String) : List String := List.insertionSort strLE l

/-! ### JSON values and the canonical encoder (`_canonical_json`)

`_canonical_json(obj) = json.dumps(obj, sort_keys=True, separators=(",", ":"),
ensure_ascii=False) + "\n"`.  The tool only ever serializes `None`, `bool`,
`int`, `str`, lists and string-keyed dicts, so `Json` models exactly that
value universe.
-/

/-- JSON-representable values as the tool uses them. -/
inductive Json where
  | null
  | bool (b : Bool)
  | int (n : Int)
  | str (s : String)
  | arr (elems : List Json)
  | obj (members : List (String × Json))

/-- Python's `x is None` test on a value: `None` is `Json.null`. -/
def Json.isNull : Json → Bool
  | .null => true
  | _ => false

/-- `json.dumps` escaping of one character with `ensure_ascii=False`: escape the
backslash, the double quote and control characters, and pass everything else
(including non-ASCII) through unchanged. -/
def escapeChar (c : Char) : List Char :=
  if c = '\\' then ['\\', '\\']
  else if c = '"' then ['\\', '"']
  else if c = '\n' then ['\\', 'n']
  else if c = '\t' then ['\\', 't']
  else if c = '\r' then ['\\', 'r']
  else if c.toNat = 8 then ['\\', 'b']
  else if c.toNat = 12 then ['\\', 'f']
  else if c.toNat < 32 then ['\\', 'u', '0', '0', hexDigit (c.toNat / 16), hexDigit (c.toNat % 16)]
  else [c]

/-- The escaped body of a JSON string literal. -/
def escBody (s : String) : List Char := (s.data.map escapeChar).flatten

/-- A JSON string literal: quote, escaped body, quote. -/
def escapeString (s : String) : List Char := '"' :: escBody s ++ ['"']

/-- Render one already-encoded object member as `"key":value`. -/
def renderMember (p : String × List Char) : List Char := escapeString p.1 ++ ':' :: p.2

mutual

/-- `json.dumps(obj, sort_keys=True, separators=(",", ":"), ensure_ascii=False)`,
character by character.  Object members are emitted in ascending key order
(Python's `sorted` on the dict items, which compares the unique keys). -/
def dumpChars : Json → List Char
  | .null => ['n', 'u', 'l', 'l']
  | .bool false => ['f', 'a', 'l', 's', 'e']
  | .bool true => ['t', 'r', 'u', 'e']
  | .int n => pyIntChars n
  | .str s => escapeString s
  | .arr xs => '[' :: List.intercalate [','] (dumpList xs) ++ [']']
  | .obj kvs =>
      '{' :: List.intercalate [','] ((List.insertionSort keyLE (dumpMembers kvs)).map renderMember)
        ++ ['}']

/-- Encode each array element. -/
def dumpList : List Json → List (List Char)
  | [] => []
  | x :: xs => dumpChars x :: dumpList xs

/-- Encode the value of each object member, keeping its key. -/
def dumpMembers : List (String × Json) → List (String × List Char)
  | [] => []
  | (k, v) :: kvs => (k, dumpChars v) :: dumpMembers kvs

end

/-- `_canonical_json` from the source: canonical serialization plus one newline. -/
def _canonical_json (j : Json) : String := String.mk (dumpChars j ++ ['\n'])

/-- `n` spaces. -/
def indentChars (n : Nat) : List Char := List.replicate n ' '

mutual

/-- `json.dumps(obj, indent=2, ensure_ascii=False)` (used for `manifest.json`):
members keep insertion order, items are separated by `",\n"`, keys by `": "`. -/
def prettyChars : Nat → Json → List Char
  | _, .null => ['n', 'u', 'l', 'l']
  | _, .bool true => ['t', 'r', 'u', 'e']
  | _, .bool false => ['f', 'a', 'l', 's', 'e']
  | _, .int n => pyIntChars n
  | _, .str s => escapeString s
  | _, .arr [] => ['[', ']']
  | lvl, .arr (x :: xs) =>
      '[' :: '\n' :: List.intercalate (',' :: ['\n'])
          ((prettyList (lvl + 2) (x :: xs)).map (indentChars (lvl + 2) ++ ·))
        ++ '\n' :: indentChars lvl ++ [']']
  | _, .obj [] => ['{', '}']
  | lvl, .obj (kv :: kvs) =>
      '{' :: '\n' :: List.intercalate (',' :: ['\n'])
          ((prettyMembers (lvl + 2) (kv :: kvs)).map
            fun p => indentChars (lvl + 2) ++ escapeString p.1 ++ ':' :: ' ' :: p.2)
        ++ '\n' :: indentChars lvl ++ ['}']

def prettyList : Nat → List Json → List (List Char)
  | _, [] => []
  | lvl, x :: xs => prettyChars lvl x :: prettyList lvl xs

def prettyMembers : Nat → List (String × Json) → List (String × List Char)
  | _, [] => []
  | lvl, (k, v) :: kvs => (k, prettyChars lvl v) :: prettyMembers lvl kvs

end

/-- The manifest file text: `json.dumps(manifest, indent=2, ensure_ascii=False) + "\n"`. -/
def prettyJsonText (j : Json) : String := String.mk (prettyChars 0 j ++ ['\n'])

/-! ### Upstream rows and Python coercions -/

/-- An upstream row: a Python dict from field names to values (insertion order,
unique keys). -/
abbrev Row := List (String × Json)

mutual

/-- Python `str(v)` for the values the tool stringifies.  Scalars are exact;
for containers this is CPython's `repr` without quote-escaping refinements
(no claim depends on stringified containers). -/
def pyStr : Json → String
  | .str s => s
  | v => pyRepr v

/-- Python `repr(v)` (single-quoted strings, `None`/`True`/`False`, decimal
ints, `, `-separated containers). -/
def pyRepr : Json → String
  | .null => "None"
  | .bool true => "True"
  | .bool false => "False"
  | .int n => pyIntStr n
  | .str s => "'" ++ s ++ "'"
  | .arr xs => "[" ++ String.intercalate ", " (pyReprList xs) ++ "]"
  | .obj kvs =>
      "\x7b" ++ String.intercalate ", " ((pyReprMembers kvs).map fun p => "'" ++ p.1 ++ "': " ++ p.2)
        ++ "\x7d"

def pyReprList : List Json → List String
  | [] => []
  | x :: xs => pyRepr x :: pyReprList xs

def pyReprMembers : List (String × Json) → List (String × String)
  | [] => []
  | (k, v) :: kvs => (k, pyRepr v) :: pyReprMembers kvs

end

/-- `k in row` for a Python dict. -/
def rowHasKey (r : Row) (k : String) : Bool := r.any (·.1 == k)

/-- `row[k]` for a Python dict (first binding; dict keys are unique). -/
def rowGet (r : Row) (k : String) : Option Json := (r.find? (·.1 == k)).map (·.2)

/-- `row.keys()` in insertion order. -/
def rowKeys (r : Row) : List String := r.map (·.1)

/-- `_get_first_present` from the source: probe candidate keys in order and
return `row[k]` for the first present key (`if k in row: return row[k]`),
else Python `None`.  `None` is `Json.null`: a field stored with the value
`None` and the no-key-present fallback return the same Python object, and
every call site tests the result only with `is None`. -/
def _get_first_present (r : Row) : List String → Json
  | [] => .null
  | k :: ks =>
      match rowGet r k with
      | some v => v
      | none => _get_first_present r ks

/-- `_infer_source_id` from the source: the first present id candidate,
stringified — unless the probe yields `None` (no candidate key present, or
the first present one holding the stored `None`), in which case
`if v is None: return str(idx)` falls back to the positional index. -/
def _infer_source_id (r : Row) (idx : Nat) : String :=
  let v := _get_first_present r ["id", "problem_id", "source_id", "uuid"]
  if v.isNull then String.mk (natDigits idx) else pyStr v

/-! ### The item schema and `build_slice` -/

/-- `SliceSpec` from the source. -/
structure SliceSpec where
  n : Int
  seed : Int
  method : String
  split : String
  revision : Option String
  streaming : Bool
deriving DecidableEq, Repr

/-- The `source` record of a normalized item. -/
structure ItemSource where
  dataset : String
  split : String
  source_id : String
  problem_source : Option String
  generation_model : Option String
deriving DecidableEq, Repr

/-- The `content` record of a normalized item: exactly the hashed payload. -/
structure ItemContent where
  problem : String
  final_answer : Option String
deriving DecidableEq, Repr

/-- A normalized item as built by `build_slice`. -/
structure Item where
  item_id : String
  source : ItemSource
  content : ItemContent
  trace_steps : List Json
  trace_max_steps : Nat
  provenance_generated_solution : Option String
  content_sha256 : String

/-- The `content` dict of an item, in source insertion order. -/
def contentJson (c : ItemContent) : Json :=
  .obj [("problem", .str c.problem),
        ("final_answer", match c.final_answer with | none => .null | some s => .str s)]

/-- An optional string as a JSON value (`None` ↦ `null`). -/
def optStrJson : Option String → Json
  | none => .null
  | some s => .str s

/-- The full item dict as assembled by `build_slice` (insertion order of the
source, with `problem_source` / `generation_model` appended when present). -/
def itemToJson (it : Item) : Json :=
  .obj [("item_id", .str it.item_id),
        ("source", .obj ([("dataset", .str it.source.dataset),
                          ("split", .str it.source.split),
                          ("source_id", .str it.source.source_id)]
          ++ (match it.source.problem_source with
              | none => [] | some s => [("problem_source", Json.str s)])
          ++ (match it.source.generation_model with
              | none => [] | some s => [("generation_model", Json.str s)]))),
        ("content", contentJson it.content),
        ("trace", .obj [("steps", .arr it.trace_steps),
                        ("max_steps", .int it.trace_max_steps)]),
        ("provenance", .obj [("generated_solution", optStrJson it.provenance_generated_solution)]),
        ("hashes", .obj [("content_sha256", .str it.content_sha256)])]

/-- The `KeyError` raised on a row without a problem field; it carries the
sorted available field names of the offending row. -/
structure SchemaKeyError where
  keys : List String
deriving DecidableEq, Repr

/-- The message of the raised `KeyError`:
`f"Missing problem field in row keys={sorted(r.keys())}"`. -/
def schemaErrorMessage (e : SchemaKeyError) : String :=
  "Missing problem field in row keys=" ++ pyRepr (.arr (e.keys.map .str))

/-- The loop body of `build_slice` for one row at positional index `i`:
`raise KeyError(...)` when the problem probe yields Python `None` (no
candidate key present, or the first present candidate holding the stored
`None`), else the normalized item.  Every `x is None` test of the source is
`Json.isNull`; `str(x)` applied only when the probe is not `None` keeps
`None`-valued answer and solution probes as `None` (stored `null` /
omitted key) rather than the string `"None"`. -/
def normalizeRow (split : String) (i : Nat) (r : Row) : Except SchemaKeyError Item :=
  if (_get_first_present r ["problem", "question", "prompt"]).isNull then
    .error ⟨pySortedStrings (rowKeys r)⟩
  else
    let source_id := _infer_source_id r i
    let problem := _get_first_present r ["problem", "question", "prompt"]
    let final_answer :=
      _get_first_present r ["final_answer", "expected_answer", "answer", "expected_output"]
    let final_answer := if final_answer.isNull then none else some (pyStr final_answer)
    let generated_solution :=
      _get_first_present r ["generated_solution", "solution", "generated_answer"]
    let generated_solution :=
      if generated_solution.isNull then none else some (pyStr generated_solution)
    let problem_source := _get_first_present r ["problem_source"]
    let generation_model := _get_first_present r ["generation_model"]
    let item_id := "omr:" ++ split ++ ":" ++ source_id
    let content : ItemContent := ⟨pyStr problem, final_answer⟩
    .ok { item_id := item_id,
          source := ⟨"nvidia/OpenMathReasoning", split, source_id,
                     if problem_source.isNull then none else some (pyStr problem_source),
                     if generation_model.isNull then none else some (pyStr generation_model)⟩,
          content := content,
          trace_steps := [],
          trace_max_steps := 30,
          provenance_generated_solution := generated_solution,
          content_sha256 := _sha256_str (_canonical_json (contentJson content)) }

/-- The normalization loop: first failure aborts. -/
def normalizeRows (split : String) : Nat → List Row → Except SchemaKeyError (List Item)
  | _, [] => .ok []
  | i, r :: rs =>
      match normalizeRow split i r with
      | .error e => .error e
      | .ok it =>
          match normalizeRows split (i + 1) rs with
          | .error e => .error e
          | .ok its => .ok (it :: its)

/-- The upstream provider: the result of
`load_dataset("nvidia/OpenMathReasoning", split=..., revision=..., streaming=...)`.
`shuffleBuffered` / `shuffleFull` model the provider's seeded shuffle
(`ds.shuffle(seed=seed, buffer_size=10_000)` / `ds.shuffle(seed=seed)`);
`fingerprint` and `features` model `getattr(ds, "_fingerprint", None)` and
`getattr(ds, "features", {})` of the (possibly shuffled) dataset object. -/
structure Dataset where
  rows : List Row
  shuffleBuffered : Int → Nat → List Row
  shuffleFull : Int → List Row
  fingerprint : Option String
  features : List String

/-- The `meta` record returned by `build_slice`. -/
structure BuildMeta where
  dataset_fingerprint : Option String
  num_rows_total : Option Nat
  features : List String
  streaming : Bool
deriving DecidableEq, Repr

/-- The result of `build_slice`. -/
structure BuildOutput where
  items : List Item
  meta : BuildMeta

/-- The streaming row pull: `for i, r in enumerate(ds): if i >= n: break`. -/
def takeFirstLoop (n : Int) : Nat → List Row → List Row
  | _, [] => []
  | i, r :: rs => if (i : Int) ≥ n then [] else r :: takeFirstLoop n (i + 1) rs

/-- The non-streaming row pull: `[ds[i] for i in range(min(n, len(ds)))]`. -/
def nonStreamingRows (n : Int) (rows : List Row) : List Row :=
  (List.range (min n (rows.length : Int)).toNat).map fun i => rows.getD i []

/-- `build_slice` from the source, given the loaded dataset `ds`. -/
def build_slice (ds : Dataset) (n seed : Int) (method split : String)
    (revision : Option String) (streaming : Bool) : Except SchemaKeyError BuildOutput :=
  let ds1 := if method = "shuffle" then
      (if streaming then ds.shuffleBuffered seed 10000 else ds.shuffleFull seed)
    else ds.rows
  let rows := if streaming then takeFirstLoop n 0 ds1 else nonStreamingRows n ds1
  match normalizeRows split 0 rows with
  | .error e => .error e
  | .ok items =>
      .ok { items := items,
            meta := { dataset_fingerprint := ds.fingerprint,
                      num_rows_total := if streaming then none else some ds1.length,
                      features := ds.features,
                      streaming := streaming } }

/-! ### Slice identity, manifest and the artifact writer (`write_slice`) -/

/-- The parameter dict hashed to derive `slice_id` (insertion order of the source). -/
def sliceParamsJson (spec : SliceSpec) : Json :=
  .obj [("dataset", .str "nvidia/OpenMathReasoning"),
        ("split", .str spec.split),
        ("revision", optStrJson spec.revision),
        ("method", .str spec.method),
        ("seed", .int spec.seed),
        ("n", .int spec.n),
        ("streaming", .bool spec.streaming)]

/-- `_sha256_str(_canonical_json(params))[:12]`. -/
def sliceHashChars (spec : SliceSpec) : List Char :=
  (sha256HexChars (utf8Bytes (_canonical_json (sliceParamsJson spec)).data)).take 12

/-- `f"slice_omr_{split}_{method}_n{n}_s{seed}_{slice_hash}"`, character by character. -/
def sliceIdChars (spec : SliceSpec) : List Char :=
  "slice_omr_".data ++ spec.split.data ++ "_".data ++ spec.method.data
    ++ "_n".data ++ pyIntChars spec.n ++ "_s".data ++ pyIntChars spec.seed
    ++ "_".data ++ sliceHashChars spec

/-- The derived slice identifier. -/
def sliceId (spec : SliceSpec) : String := String.mk (sliceIdChars spec)

/-- The manifest dict assembled by `write_slice` (insertion order of the source). -/
def manifestJson (spec : SliceSpec) (slice_id created_at_utc fingerprint : String)
    (features : List String) (itemsCount : Nat) (items_sha256 : String) : Json :=
  .obj [("schema_version", .str "candidate_pool_slice@0.1"),
        ("slice_id", .str slice_id),
        ("created_at_utc", .str created_at_utc),
        ("source", .obj [("dataset", .str "nvidia/OpenMathReasoning"),
                         ("split", .str spec.split),
                         ("revision", optStrJson spec.revision),
                         ("method", .str spec.method),
                         ("seed", .int spec.seed),
                         ("n", .int spec.n),
                         ("streaming", .bool spec.streaming),
                         ("dataset_fingerprint", .str fingerprint),
                         ("features", .arr (features.map .str))]),
        ("trace", .obj [("steps_initially_blank", .bool true),
                        ("max_steps_range", .arr [.int 8, .int 30]),
                        ("step_type_vocab", .arr ([
                          "parse", "rewrite", "simplify", "substitute", "expand", "factor",
                          "differentiate", "integrate", "apply_identity", "apply_theorem",
                          "case_split", "introduce_variable", "bound_estimate", "compute",
                          "verify", "conclude"].map Json.str))]),
        ("counts", .obj [("items", .int itemsCount)]),
        ("files", .obj [("items_jsonl",
            .obj [("path", .str "items.jsonl"), ("sha256", .str items_sha256)])]),
        ("hashing", .obj [
            ("canonicalization",
             .str "json.dumps(obj, sort_keys=True, separators=(',', ':'), ensure_ascii=False) + '\\n'"),
            ("item_content_hash_input", .str "content object only"),
            ("items_file_hash_input", .str "exact bytes of items.jsonl")])]

/-- A small filesystem: a set of directories and a map from file paths to text
contents (most recent write first). -/
structure FS where
  dirs : List String
  files : List (String × String)
deriving DecidableEq, Repr

/-- Does a file exist at `p`? -/
def FS.fileExists (fs : FS) (p : String) : Bool := fs.files.any (·.1 == p)

/-- Does a directory exist at `p`? -/
def FS.dirExists (fs : FS) (p : String) : Bool := fs.dirs.any (· == p)

/-- `Path.exists()`: a file or directory at `p`. -/
def FS.pathExists (fs : FS) (p : String) : Bool := fs.dirExists p || fs.fileExists p

/-- Read a file's contents. -/
def FS.readFile (fs : FS) (p : String) : Option String := (fs.files.find? (·.1 == p)).map (·.2)

/-- Write (or overwrite) a file. -/
def FS.writeFile (fs : FS) (p c : String) : FS := { fs with files := (p, c) :: fs.files }

/-- Create a directory (the caller has checked it does not exist). -/
def FS.mkdir (fs : FS) (p : String) : FS := { fs with dirs := p :: fs.dirs }

/-- `a / b` on paths. -/
def joinPath (a b : String) : String := a ++ "/" ++ b

/-- Errors `write_slice` can raise: the `FileExistsError` conflict, or a
schema error propagated from `build_slice`. -/
inductive WriteError where
  | conflict (dir : String)
  | schema (e : SchemaKeyError)
deriving DecidableEq, Repr

/-- The outcome of `write_slice`: its result, the filesystem afterwards, and
whether the upstream provider was invoked (`load_dataset` runs inside
`build_slice`). -/
structure WriteOutcome where
  result : Except WriteError String
  fs : FS
  pulled : Bool

/-- The text of `items.jsonl`: one canonical line per item. -/
def itemsFileText (items : List Item) : String :=
  String.mk ((items.map fun it => (_canonical_json (itemToJson it)).data).flatten)

/-- `write_slice` from the source.  `created_at_utc` stands for
`datetime.now(timezone.utc).isoformat()` (an external input). -/
def write_slice (fs : FS) (out_dir : String) (spec : SliceSpec) (ds : Dataset)
    (created_at_utc : String) : WriteOutcome :=
  let slice_id := sliceId spec
  let slice_dir := joinPath out_dir slice_id
  if fs.pathExists slice_dir then
    let manifest_path := joinPath slice_dir "manifest.json"
    let items_path := joinPath slice_dir "items.jsonl"
    if fs.pathExists manifest_path && fs.pathExists items_path then
      ⟨.ok slice_dir, fs, false⟩
    else
      ⟨.error (.conflict slice_dir), fs, false⟩
  else
    let fs1 := fs.mkdir slice_dir
    match build_slice ds spec.n spec.seed spec.method spec.split spec.revision spec.streaming with
    | .error e => ⟨.error (.schema e), fs1, true⟩
    | .ok built =>
        let items := built.items
        let meta := built.meta
        let fingerprint := match meta.dataset_fingerprint with
          | none => "unknown"
          | some s => if s = "" then "unknown" else s
        let items_path := joinPath slice_dir "items.jsonl"
        let itemsText := itemsFileText items
        let fs2 := fs1.writeFile items_path itemsText
        let items_sha256 := _sha256_bytes (utf8Bytes itemsText.data)
        let manifest := manifestJson spec slice_id created_at_utc fingerprint meta.features
          items.length items_sha256
        let manifest_path := joinPath slice_dir "manifest.json"
        let fs3 := fs2.writeFile manifest_path (prettyJsonText manifest)
        ⟨.ok slice_dir, fs3, true⟩

/-! ### Derived views of `build_slice` used by the claims -/

/-- Does the problem probe succeed for a row?  This is the source's
`problem is not None` test: a candidate key is present and the first present
one does not hold the stored `None`. -/
def hasProblemField (r : Row) : Bool :=
  !(_get_first_present r ["problem", "question", "prompt"]).isNull

/-- The row sequence after the method dispatch of `build_slice`. -/
def methodRows (ds : Dataset) (seed : Int) (method : String) (streaming : Bool) : List Row :=
  if method = "shuffle" then
    (if streaming then ds.shuffleBuffered seed 10000 else ds.shuffleFull seed)
  else ds.rows

/-- The rows actually sampled by `build_slice`. -/
def sampledRows (ds : Dataset) (n seed : Int) (method : String) (streaming : Bool) : List Row :=
  if streaming then takeFirstLoop n 0 (methodRows ds seed method streaming)
  else nonStreamingRows n (methodRows ds seed method streaming)

/-- A provider whose rows are fixed and whose seeded shuffles return the rows
unchanged (one legitimate provider behaviour; the claims quantify over the
shuffle or do not reach it). -/
def constDataset (rows : List Row) : Dataset := ⟨rows, fun _ _ => rows, fun _ => rows, none, []⟩

/-! ### Canonical form, well-formedness and semantic equality of JSON values -/

mutual

/-- Recursively sort all object member lists by key: the value a canonical
encoding parses back to. -/
def canon : Json → Json
  | .null => .null
  | .bool b => .bool b
  | .int n => .int n
  | .str s => .str s
  | .arr xs => .arr (canonList xs)
  | .obj kvs => .obj (List.insertionSort keyLE (canonMembers kvs))

def canonList : List Json → List Json
  | [] => []
  | x :: xs => canon x :: canonList xs

def canonMembers : List (String × Json) → List (String × Json)
  | [] => []
  | (k, v) :: kvs => (k, canon v) :: canonMembers kvs

end

/-- Are the entries of a list pairwise distinct? -/
def nodupB : List String → Bool
  | [] => true
  | k :: ks => !ks.contains k && nodupB ks

mutual

/-- Well-formed JSON values: every object has pairwise-distinct keys (true of
every value obtained from a Python dict). -/
def wfJson : Json → Bool
  | .null => true
  | .bool _ => true
  | .int _ => true
  | .str _ => true
  | .arr xs => wfList xs
  | .obj kvs => nodupB (kvs.map Prod.fst) && wfMembers kvs

def wfList : List Json → Bool
  | [] => true
  | x :: xs => wfJson x && wfList xs

def wfMembers : List (String × Json) → Bool
  | [] => true
  | (_, v) :: kvs => wfJson v && wfMembers kvs

end

/-- Whitespace as JSON insignificant whitespace. -/
def isWsChar (c : Char) : Bool := c = ' ' || c = '\t' || c = '\n' || c = '\r'

/-- Does a string avoid the space character?  (The other whitespace characters
are always escaped by the encoder.) -/
def noSpace (s : String) : Bool := !s.data.contains ' '

mutual

/-- Do all strings and keys of a value avoid the space character? -/
def jsonNoSpaces : Json → Bool
  | .null => true
  | .bool _ => true
  | .int _ => true
  | .str s => noSpace s
  | .arr xs => jsonNoSpacesList xs
  | .obj kvs => jsonNoSpacesMembers kvs

def jsonNoSpacesList : List Json → Bool
  | [] => true
  | x :: xs => jsonNoSpaces x && jsonNoSpacesList xs

def jsonNoSpacesMembers : List (String × Json) → Bool
  | [] => true
  | (k, v) :: kvs => noSpace k && jsonNoSpaces v && jsonNoSpacesMembers kvs

end

/-- Semantic equality of JSON values: equal scalars, pointwise-equal arrays,
and objects with the same key/value multiset in any order. -/
def JEquiv : Json → Json → Prop
  | .null, .null => True
  | .bool x, .bool y => x = y
  | .int x, .int y => x = y
  | .str x, .str y => x = y
  | .arr xs, .arr ys => xs.length = ys.length ∧ ∀ x y, (x, y) ∈ xs.zip ys → JEquiv x y
  | .obj kvs₁, .obj kvs₂ =>
      ∃ mid : List (String × Json), kvs₁.length = mid.length ∧
        (∀ k v k' v', ((k, v), (k', v')) ∈ kvs₁.zip mid → k = k' ∧ JEquiv v v') ∧
        mid.Perm kvs₂
  | _, _ => False
termination_by a _ => sizeOf a
decreasing_by
  · have h1 := (List.of_mem_zip (by assumption)).1
    have := List.sizeOf_lt_of_mem h1
    simp only [Json.arr.sizeOf_spec]
    omega
  · have h1 := (List.of_mem_zip (by assumption)).1
    have h2 := List.sizeOf_lt_of_mem h1
    simp only [Prod.mk.sizeOf_spec] at h2
    simp only [Json.obj.sizeOf_spec]
    omega

/-! ### A JSON parser (`json.loads` on the canonical fragment)

The parser is used to state round-trip stability of the canonical encoder.
It accepts the grammar the canonical encoder emits (and arbitrary JSON
whitespace between tokens); numbers are integers, as produced by the tool.
-/

/-- Is `c` a decimal digit? -/
def isDigitC (c : Char) : Bool := 48 ≤ c.toNat && c.toNat ≤ 57

/-- The value of a hexadecimal digit. -/
def hexVal (c : Char) : Option Nat :=
  if 48 ≤ c.toNat && c.toNat ≤ 57 then some (c.toNat - 48)
  else if 97 ≤ c.toNat && c.toNat ≤ 102 then some (c.toNat - 87)
  else if 65 ≤ c.toNat && c.toNat ≤ 70 then some (c.toNat - 55)
  else none

/-- Decode a single-character escape. -/
def unescapeChar (c : Char) : Option Char :=
  if c = '"' then some '"'
  else if c = '\\' then some '\\'
  else if c = '/' then some '/'
  else if c = 'b' then some (Char.ofNat 8)
  else if c = 'f' then some (Char.ofNat 12)
  else if c = 'n' then some '\n'
  else if c = 'r' then some '\r'
  else if c = 't' then some '\t'
  else none

/-- Skip JSON whitespace. -/
def skipWs : List Char → List Char
  | [] => []
  | c :: cs => if isWsChar c then skipWs cs else c :: cs

/-- Parse the body of a string literal up to its closing quote. -/
def parseStrBody : Nat → List Char → Option (List Char × List Char)
  | 0, _ => none
  | _, [] => none
  | fuel + 1, c :: rest =>
      if c = '"' then some ([], rest)
      else if c = '\\' then
        match rest with
        | 'u' :: h1 :: h2 :: h3 :: h4 :: rest2 =>
            (match hexVal h1, hexVal h2, hexVal h3, hexVal h4 with
             | some a, some b, some c3, some d =>
                 (parseStrBody fuel rest2).map fun p =>
                   (Char.ofNat (((a * 16 + b) * 16 + c3) * 16 + d) :: p.1, p.2)
             | _, _, _, _ => none)
        | e :: rest2 =>
            (match unescapeChar e with
             | some c2 => (parseStrBody fuel rest2).map fun p => (c2 :: p.1, p.2)
             | none => none)
        | [] => none
      else (parseStrBody fuel rest).map fun p => (c :: p.1, p.2)

/-- Parse a nonempty run of decimal digits. -/
def parseNatDigits (cs : List Char) : Option (Nat × List Char) :=
  match cs.takeWhile isDigitC with
  | [] => none
  | ds => some (charsVal ds, cs.dropWhile isDigitC)

mutual

/-- Parse one JSON value (integers only, as the canonical encoder emits). -/
def parseVal : Nat → List Char → Option (Json × List Char)
  | 0, _ => none
  | fuel + 1, cs0 =>
      match skipWs cs0 with
      | 'n' :: 'u' :: 'l' :: 'l' :: rest => some (.null, rest)
      | 't' :: 'r' :: 'u' :: 'e' :: rest => some (.bool true, rest)
      | 'f' :: 'a' :: 'l' :: 's' :: 'e' :: rest => some (.bool false, rest)
      | '"' :: rest => (parseStrBody (rest.length + 1) rest).map fun p => (.str (String.mk p.1), p.2)
      | '[' :: rest =>
          (match skipWs rest with
           | ']' :: rest2 => some (.arr [], rest2)
           | _ => (parseElems fuel rest).map fun p => (.arr p.1, p.2))
      | '{' :: rest =>
          (match skipWs rest with
           | '}' :: rest2 => some (.obj [], rest2)
           | _ => (parseMembers fuel rest).map fun p => (.obj p.1, p.2))
      | '-' :: rest => (parseNatDigits rest).map fun p => (.int (-(p.1 : Int)), p.2)
      | cs => (parseNatDigits cs).map fun p => (.int (p.1 : Int), p.2)

/-- Parse the elements of a nonempty array after its `[`. -/
def parseElems : Nat → List Char → Option (List Json × List Char)
  | 0, _ => none
  | fuel + 1, cs =>
      match parseVal fuel cs with
      | none => none
      | some (v, r) =>
          match skipWs r with
          | ',' :: r2 => (parseElems fuel r2).map fun p => (v :: p.1, p.2)
          | ']' :: r2 => some ([v], r2)
          | _ => none

/-- Parse the members of a nonempty object after its `{`. -/
def parseMembers : Nat → List Char → Option (List (String × Json) × List Char)
  | 0, _ => none
  | fuel + 1, cs =>
      match skipWs cs with
      | '"' :: rest =>
          (match parseStrBody (rest.length + 1) rest with
           | none => none
           | some (k, r) =>
               match skipWs r with
               | ':' :: r2 =>
                   (match parseVal fuel r2 with
                    | none => none
                    | some (v, r3) =>
                        match skipWs r3 with
                        | ',' :: r4 =>
                            (parseMembers fuel r4).map fun p => ((String.mk k, v) :: p.1, p.2)
                        | '}' :: r4 => some ([(String.mk k, v)], r4)
                        | _ => none)
               | _ => none)
      | _ => none

end

/-- `json.loads`: parse a complete document, allowing trailing whitespace. -/
def json_loads (s : String) : Option Json :=
  match parseVal (s.data.length + 1) s.data with
  | some (v, rest) => if skipWs rest = [] then some v else none
  | none => none

mutual

/-- Parser fuel sufficient for a value. -/
def jfuel : Json → Nat
  | .null => 1
  | .bool _ => 1
  | .int _ => 1
  | .str _ => 1
  | .arr xs => jfuelL xs + 1
  | .obj kvs => jfuelM kvs + 1

def jfuelL : List Json → Nat
  | [] => 0
  | x :: xs => jfuel x + jfuelL xs + 1

def jfuelM : List (String × Json) → Nat
  | [] => 0
  | (_, v) :: kvs => jfuel v + jfuelM kvs + 1

end

/-! ### Concrete rows and providers used as witnesses -/

/-- A row with no recognizable problem field. -/
def rowFoo : Row := [("foo", Json.str "bar")]

/-- A row whose problem candidate field is present but holds the stored
`None` (`{"problem": None}`). -/
def rowNullProblem : Row := [("problem", Json.null)]

/-- A provider whose only row stores `None` in its `problem` field. -/
def dsNullProblem : Dataset := constDataset [rowNullProblem]

/-- A provider holding only the unusable row. -/
def dsFoo : Dataset := constDataset [rowFoo]

/-- A row whose answer arrives as an integer under `final_answer`. -/
def rowA : Row :=
  [("problem", Json.str "2+2"), ("final_answer", Json.int 4), ("solution", Json.str "steps v1")]

/-- A row with the same content as `rowA` but different id, answer field,
provenance and source metadata. -/
def rowB : Row :=
  [("id", Json.str "z9"), ("problem", Json.str "2+2"), ("answer", Json.str "4"),
   ("solution", Json.str "steps v2"), ("problem_source", Json.str "amc")]

def dsA : Dataset := constDataset [rowA]

def dsB : Dataset := constDataset [rowB]

/-- Two rows sharing the upstream id `"x"`. -/
def rowDup1 : Row := [("id", Json.str "x"), ("problem", Json.str "p")]

def rowDup2 : Row := [("id", Json.str "x"), ("problem", Json.str "q")]

def dsDup : Dataset := constDataset [rowDup1, rowDup2]

/-- A provider with 50 identical usable rows. -/
def dsFifty : Dataset := constDataset (List.replicate 50 [("problem", Json.str "p")])

/-- A small concrete spec used by witnesses. -/
def specW : SliceSpec := ⟨1, 0, "first", "cot", none, true⟩

/-- The slice directory `write_slice` derives for `specW` under `"out"`. -/
def dirW : String := joinPath "out" (sliceId specW)

/-- A filesystem holding a complete prior artifact for `specW`. -/
def fsComplete : FS :=
  ⟨[dirW], [(joinPath dirW "manifest.json", "m"), (joinPath dirW "items.jsonl", "i")]⟩

/-- A filesystem holding a corrupt artifact for `specW`: the directory and
`items.jsonl` exist, `manifest.json` is missing. -/
def fsPartial : FS := ⟨[dirW], [(joinPath dirW "items.jsonl", "i")]⟩

/-! ### Theorems -/

theorem charsVal_append_digit (cs : List Char) (c : Char) :
    charsVal (cs ++ [c]) = charsVal cs * 10 + digitVal c := by
  simp [charsVal, List.foldl_append]

theorem digitVal_decDigit {d : Nat} (h : d < 10) : digitVal (decDigit d) = d := by
  interval_cases d <;> decide

theorem charsVal_natDigitsAux {fuel n : Nat} (h : n < 10 ^ fuel) :
    charsVal (natDigitsAux fuel n) = n := by
  induction fuel generalizing n with
  | zero => simp at h; simp [h, natDigitsAux, charsVal]
  | succ fuel ih =>
      rw [natDigitsAux]
      by_cases hn : n < 10
      · simp only [if_pos hn]
        simpa [charsVal] using digitVal_decDigit hn
      · simp only [if_neg hn]
        rw [charsVal_append_digit, ih (by omega), digitVal_decDigit (Nat.mod_lt _ (by omega))]
        omega

theorem charsVal_natDigits (n : Nat) : charsVal (natDigits n) = n :=
  charsVal_natDigitsAux
    (lt_of_lt_of_le (Nat.lt_pow_self (by omega) n) (Nat.pow_le_pow_right (by omega) (by omega)))

theorem natDigits_injective : Function.Injective natDigits := by
  intro a b h
  have := charsVal_natDigits a
  rw [h, charsVal_natDigits] at this
  omega

theorem natDigitsAux_all_digits {fuel n : Nat} :
    ∀ c ∈ natDigitsAux fuel n, 48 ≤ c.toNat ∧ c.toNat ≤ 57 := by
  induction fuel generalizing n with
  | zero => simp [natDigitsAux]
  | succ fuel ih =>
      intro c hc
      rw [natDigitsAux] at hc
      by_cases hn : n < 10
      · simp only [if_pos hn, List.mem_singleton] at hc
        subst hc
        have : n < 10 := hn
        interval_cases n <;> decide
      · simp only [if_neg hn, List.mem_append, List.mem_singleton] at hc
        rcases hc with hc | hc
        · exact ih c hc
        · subst hc
          have : n % 10 < 10 := Nat.mod_lt _ (by omega)
          interval_cases h : n % 10 <;> decide

theorem natDigits_ne_nil (n : Nat) : natDigits n ≠ [] := by
  rw [natDigits, natDigitsAux]
  by_cases hn : n < 10 <;> simp [hn]

theorem natDigits_all_digits (n : Nat) : ∀ c ∈ natDigits n, 48 ≤ c.toNat ∧ c.toNat ≤ 57 := by
  rw [natDigits]; exact fun c hc => natDigitsAux_all_digits c hc

theorem pyIntChars_injective : Function.Injective pyIntChars := by
  intro a b h
  match a, b with
  | .ofNat m, .ofNat n => simpa using natDigits_injective (by simpa [pyIntChars] using h)
  | .negSucc m, .negSucc n =>
      simp only [pyIntChars, List.cons.injEq, true_and] at h
      have h2 := natDigits_injective h
      have : m = n := by omega
      subst this; rfl
  | .ofNat m, .negSucc n =>
      exfalso
      simp only [pyIntChars] at h
      have hmem : '-' ∈ natDigits m := by rw [h]; exact List.mem_cons_self _ _
      exact absurd (natDigits_all_digits m '-' hmem).1 (by decide)
  | .negSucc m, .ofNat n =>
      exfalso
      simp only [pyIntChars] at h
      have hmem : '-' ∈ natDigits n := by rw [← h]; exact List.mem_cons_self _ _
      exact absurd (natDigits_all_digits n '-' hmem).1 (by decide)

theorem wordHex_length (w : Nat) : (wordHex w).length = 8 := rfl

theorem sha256HexChars_length (msg : List Nat) : (sha256HexChars msg).length = 64 := by
  simp [sha256HexChars, wordHex_length]

/-! ### Order lemmas for the Python string comparison -/

theorem char_toNat_inj {a b : Char} (h : a.toNat = b.toNat) : a = b :=
  Char.eq_of_val_eq (UInt32.ext h)

theorem charListLt_lex : ∀ {a b : List Char}, charListLt a b = true ↔ List.Lex (· < ·) a b
  | [], [] => by simp [charListLt]
  | [], _ :: _ => by simp [charListLt]; exact List.Lex.nil
  | _ :: _, [] => by simp [charListLt]
  | a :: as, b :: bs => by
      simp only [charListLt, Bool.or_eq_true, decide_eq_true_eq, Bool.and_eq_true, beq_iff_eq]
      constructor
      · rintro (h | ⟨h1, h2⟩)
        · exact List.Lex.rel h
        · rw [char_toNat_inj h1]
          exact List.Lex.cons (charListLt_lex.mp h2)
      · intro h
        cases h with
        | rel h => exact Or.inl h
        | cons h => exact Or.inr ⟨rfl, charListLt_lex.mpr h⟩

theorem charListLt_iff_lt {a b : List Char} : charListLt a b = true ↔ a < b := charListLt_lex

theorem charListLe_iff_le {a b : List Char} : charListLe a b = true ↔ a ≤ b := by
  rw [charListLe, Bool.not_eq_true']
  rw [← not_lt (a := b) (b := a), ← charListLt_iff_lt]
  simp

theorem pyStrLe_iff_le {a b : String} : pyStrLe a b = true ↔ a.data ≤ b.data := by
  rw [pyStrLe, charListLe_iff_le]

theorem keyLE_total {β : Type _} (p q : String × β) : keyLE p q ∨ keyLE q p := by
  rcases le_total p.1.data q.1.data with h | h
  · exact Or.inl (pyStrLe_iff_le.mpr h)
  · exact Or.inr (pyStrLe_iff_le.mpr h)

theorem keyLE_trans {β : Type _} {p q r : String × β} (hpq : keyLE p q) (hqr : keyLE q r) :
    keyLE p r :=
  pyStrLe_iff_le.mpr (le_trans (pyStrLe_iff_le.mp hpq) (pyStrLe_iff_le.mp hqr))

theorem string_data_inj {s t : String} (h : s.data = t.data) : s = t := by
  ext1; exact h

theorem keyLE_antisymm {β : Type _} {p q : String × β}
    (h1 : keyLE p q) (h2 : keyLE q p) : p.1 = q.1 :=
  string_data_inj (le_antisymm (pyStrLe_iff_le.mp h1) (pyStrLe_iff_le.mp h2))

/-! ### Lemmas about normalization and sampling -/

theorem normalizeRow_error_iff {split : String} {i : Nat} {r : Row} {e : SchemaKeyError} :
    normalizeRow split i r = .error e ↔
      hasProblemField r = false ∧ e = ⟨pySortedStrings (rowKeys r)⟩ := by
  rw [normalizeRow, hasProblemField]
  cases h : (_get_first_present r ["problem", "question", "prompt"]).isNull with
  | true =>
      rw [if_pos rfl]
      constructor
      · intro he
        exact ⟨rfl, (Except.error.inj he).symm⟩
      · rintro ⟨-, rfl⟩
        rfl
  | false =>
      rw [if_neg (by decide)]
      constructor
      · intro he
        exact Except.noConfusion he
      · rintro ⟨hh, -⟩
        exact absurd hh (by decide)

theorem normalizeRow_ok_iff {split : String} {i : Nat} {r : Row} :
    (∃ it, normalizeRow split i r = .ok it) ↔ hasProblemField r = true := by
  rw [normalizeRow, hasProblemField]
  cases h : (_get_first_present r ["problem", "question", "prompt"]).isNull with
  | true =>
      rw [if_pos rfl]
      constructor
      · rintro ⟨it, hit⟩
        exact Except.noConfusion hit
      · intro hh
        exact absurd hh (by decide)
  | false =>
      rw [if_neg (by decide)]
      exact ⟨fun _ => rfl, fun _ => ⟨_, rfl⟩⟩

theorem normalizeRow_fields {split : String} {i : Nat} {r : Row} {it : Item}
    (h : normalizeRow split i r = .ok it) :
    it.content_sha256 = _sha256_str (_canonical_json (contentJson it.content)) ∧
    it.item_id = "omr:" ++ split ++ ":" ++ _infer_source_id r i ∧
    it.source.source_id = _infer_source_id r i := by
  rw [normalizeRow] at h
  by_cases hp : (_get_first_present r ["problem", "question", "prompt"]).isNull
  · rw [if_pos hp] at h
    exact Except.noConfusion h
  · rw [if_neg hp] at h
    have h2 := Except.ok.inj h
    rw [← h2]
    exact ⟨rfl, rfl, rfl⟩

theorem normalizeRows_length {split : String} :
    ∀ {i : Nat} {rows : List Row} {its : List Item},
      normalizeRows split i rows = .ok its → its.length = rows.length := by
  intro i rows
  induction rows generalizing i with
  | nil => intro its h; rw [normalizeRows] at h; simp at h; simp [← h]
  | cons r rs ih =>
      intro its h
      rw [normalizeRows] at h
      cases h1 : normalizeRow split i r with
      | error e => rw [h1] at h; exact absurd h (by simp)
      | ok it =>
          rw [h1] at h
          cases h2 : normalizeRows split (i + 1) rs with
          | error e => rw [h2] at h; exact absurd h (by simp)
          | ok its2 =>
              rw [h2] at h
              simp only [Except.ok.injEq] at h
              subst h
              simp [ih h2]

theorem normalizeRows_ok_iff {split : String} :
    ∀ {i : Nat} {rows : List Row},
      (∃ its, normalizeRows split i rows = .ok its) ↔ ∀ r ∈ rows, hasProblemField r = true := by
  intro i rows
  induction rows generalizing i with
  | nil => simp [normalizeRows]
  | cons r rs ih =>
      constructor
      · rintro ⟨its, h⟩
        rw [normalizeRows] at h
        cases h1 : normalizeRow split i r with
        | error e => rw [h1] at h; exact absurd h (by simp)
        | ok it =>
            rw [h1] at h
            cases h2 : normalizeRows split (i + 1) rs with
            | error e => rw [h2] at h; exact absurd h (by simp)
            | ok its2 =>
                intro r' hr'
                rcases List.mem_cons.mp hr' with rfl | hr'
                · exact normalizeRow_ok_iff.mp ⟨it, h1⟩
                · exact (ih.mp ⟨its2, h2⟩) r' hr'
      · intro hall
        obtain ⟨it, h1⟩ := normalizeRow_ok_iff.mpr (hall r (List.mem_cons_self r rs))
        obtain ⟨its2, h2⟩ := ih.mpr fun r' hr' => hall r' (List.mem_cons_of_mem r hr')
        exact ⟨it :: its2, by rw [normalizeRows, h1, h2]⟩

theorem normalizeRows_error {split : String} :
    ∀ {i : Nat} {rows : List Row} {e : SchemaKeyError},
      normalizeRows split i rows = .error e →
      ∃ r, rows.find? (fun r => !hasProblemField r) = some r ∧
        e = ⟨pySortedStrings (rowKeys r)⟩ := by
  intro i rows
  induction rows generalizing i with
  | nil => intro e h; rw [normalizeRows] at h; exact absurd h (by simp)
  | cons r rs ih =>
      intro e h
      rw [normalizeRows] at h
      cases h1 : normalizeRow split i r with
      | error e1 =>
          rw [h1] at h
          simp only [Except.error.injEq] at h
          subst h
          obtain ⟨hb, he⟩ := normalizeRow_error_iff.mp h1
          exact ⟨r, by rw [List.find?_cons_of_pos _ (by simp [hb])], he⟩
      | ok it =>
          rw [h1] at h
          cases h2 : normalizeRows split (i + 1) rs with
          | error e2 =>
              rw [h2] at h
              simp only [Except.error.injEq] at h
              subst h
              obtain ⟨r', hf, he⟩ := ih h2
              have hr : hasProblemField r = true := by
                obtain ⟨it2, _⟩ : ∃ it2, normalizeRow split i r = .ok it2 := ⟨it, h1⟩
                exact normalizeRow_ok_iff.mp ⟨it, h1⟩
              exact ⟨r', by rw [List.find?_cons_of_neg _ (by simp [hr])]; exact hf, he⟩
          | ok its2 => rw [h2] at h; exact absurd h (by simp)

theorem normalizeRows_get {split : String} :
    ∀ {i : Nat} {rows : List Row} {its : List Item},
      normalizeRows split i rows = .ok its →
      ∀ j (hj : j < its.length) (hr : j < rows.length),
        normalizeRow split (i + j) (rows.get ⟨j, hr⟩) = .ok (its.get ⟨j, hj⟩) := by
  intro i rows
  induction rows generalizing i with
  | nil => intro its h j hj hr; exact absurd hr (by simp)
  | cons r rs ih =>
      intro its h j hj hr
      rw [normalizeRows] at h
      cases h1 : normalizeRow split i r with
      | error e => rw [h1] at h; exact absurd h (by simp)
      | ok it =>
          rw [h1] at h
          cases h2 : normalizeRows split (i + 1) rs with
          | error e => rw [h2] at h; exact absurd h (by simp)
          | ok its2 =>
              rw [h2] at h
              simp only [Except.ok.injEq] at h
              subst h
              match j with
              | 0 => simpa using h1
              | j + 1 =>
                  have := ih h2 j (by simpa using hj) (by simpa using hr)
                  have harith : i + (j + 1) = i + 1 + j := by omega
                  simpa [harith, List.get_cons_succ] using this

theorem takeFirstLoop_eq (n : Int) :
    ∀ (l : List Row) (i : Nat), takeFirstLoop n i l = l.take (n - i).toNat := by
  intro l
  induction l with
  | nil => intro i; rw [show takeFirstLoop n i [] = [] from rfl, List.take_nil]
  | cons r rs ih =>
      intro i
      rw [takeFirstLoop]
      by_cases hi : (i : Int) ≥ n
      · have h0 : (n - i).toNat = 0 := by omega
        simp [hi, h0]
      · have h1 : (n - i).toNat = (n - ((i : Int) + 1)).toNat + 1 := by omega
        have h2 : ((i + 1 : Nat) : Int) = (i : Int) + 1 := by push_cast; ring
        simp only [if_neg hi, ih (i + 1), h1, List.take_succ_cons, h2]

theorem range_map_getD_eq_take : ∀ (l : List Row) (k : Nat), k ≤ l.length →
    (List.range k).map (fun i => l.getD i []) = l.take k := by
  intro l k
  induction k with
  | zero => intro _; simp
  | succ k ih =>
      intro hk
      have hkl : k < l.length := by omega
      rw [List.range_succ, List.map_append, ih (by omega)]
      have : l.getD k [] = l.get ⟨k, hkl⟩ := by
        simp [List.getD_eq_getElem?_getD, List.getElem?_eq_getElem hkl]
      rw [List.take_succ]
      simp [this, List.getElem?_eq_getElem hkl]

theorem nonStreamingRows_eq_take (n : Int) (l : List Row) :
    nonStreamingRows n l = l.take (min n (l.length : Int)).toNat := by
  rw [nonStreamingRows, range_map_getD_eq_take]
  omega

theorem sampledRows_length (ds : Dataset) (n seed : Int) (method : String) (streaming : Bool) :
    (sampledRows ds n seed method streaming).length =
      min n.toNat (methodRows ds seed method streaming).length := by
  rw [sampledRows]
  cases streaming with
  | true =>
      rw [if_pos rfl, takeFirstLoop_eq, List.length_take]
      congr 1
      omega
  | false =>
      rw [if_neg (by simp), nonStreamingRows_eq_take, List.length_take]
      omega

theorem build_slice_eq (ds : Dataset) (n seed : Int) (method split : String)
    (revision : Option String) (streaming : Bool) :
    build_slice ds n seed method split revision streaming =
      match normalizeRows split 0 (sampledRows ds n seed method streaming) with
      | .error e => .error e
      | .ok items =>
          .ok ⟨items, ⟨ds.fingerprint,
                       if streaming then none else some (methodRows ds seed method streaming).length,
                       ds.features, streaming⟩⟩ := rfl

theorem normalizeRows_mem {split : String} :
    ∀ {i : Nat} {rows : List Row} {its : List Item},
      normalizeRows split i rows = .ok its →
      ∀ it ∈ its, ∃ j r, normalizeRow split j r = .ok it := by
  intro i rows
  induction rows generalizing i with
  | nil =>
      intro its h it hit
      rw [normalizeRows] at h
      simp only [Except.ok.injEq] at h
      subst h
      exact absurd hit (by simp)
  | cons r rs ih =>
      intro its h it hit
      rw [normalizeRows] at h
      cases h1 : normalizeRow split i r with
      | error e => rw [h1] at h; exact absurd h (by simp)
      | ok it1 =>
          rw [h1] at h
          cases h2 : normalizeRows split (i + 1) rs with
          | error e => rw [h2] at h; exact absurd h (by simp)
          | ok its2 =>
              rw [h2] at h
              simp only [Except.ok.injEq] at h
              subst h
              rcases List.mem_cons.mp hit with rfl | hit
              · exact ⟨i, r, h1⟩
              · exact ih h2 it hit

theorem build_slice_items {ds : Dataset} {n seed : Int} {method split : String}
    {revision : Option String} {streaming : Bool} {out : BuildOutput}
    (h : build_slice ds n seed method split revision streaming = .ok out) :
    normalizeRows split 0 (sampledRows ds n seed method streaming) = .ok out.items := by
  rw [build_slice_eq] at h
  cases hn : normalizeRows split 0 (sampledRows ds n seed method streaming) with
  | error e => rw [hn] at h; exact absurd h (by simp)
  | ok its =>
      rw [hn] at h
      simp only [Except.ok.injEq] at h
      rw [← h]

/-- C1: `hashes.content_sha256` is a pure function of the item's `content`
record: any two items produced by (possibly different) runs of `build_slice`
whose `content` records (problem and final_answer) agree have identical
`content_sha256`, regardless of any difference in source, provenance, trace
or any other field. -/
theorem claim_C1_hash_purity
    (ds₁ : Dataset) (n₁ seed₁ : Int) (method₁ split₁ : String) (rev₁ : Option String) (st₁ : Bool)
    (ds₂ : Dataset) (n₂ seed₂ : Int) (method₂ split₂ : String) (rev₂ : Option String) (st₂ : Bool)
    (out₁ out₂ : BuildOutput) (it₁ it₂ : Item)
    (h₁ : build_slice ds₁ n₁ seed₁ method₁ split₁ rev₁ st₁ = .ok out₁)
    (h₂ : build_slice ds₂ n₂ seed₂ method₂ split₂ rev₂ st₂ = .ok out₂)
    (hm₁ : it₁ ∈ out₁.items) (hm₂ : it₂ ∈ out₂.items)
    (hc : it₁.content = it₂.content) :
    it₁.content_sha256 = it₂.content_sha256 := by
  obtain ⟨j₁, r₁, hn₁⟩ := normalizeRows_mem (build_slice_items h₁) it₁ hm₁
  obtain ⟨j₂, r₂, hn₂⟩ := normalizeRows_mem (build_slice_items h₂) it₂ hm₂
  rw [(normalizeRow_fields hn₁).1, (normalizeRow_fields hn₂).1, hc]

theorem claim_C1_witness :
    ∃ (out₁ out₂ : BuildOutput) (it₁ it₂ : Item),
      build_slice dsA 1 0 "first" "cot" none true = .ok out₁ ∧
      build_slice dsB 1 0 "first" "cot" none true = .ok out₂ ∧
      it₁ ∈ out₁.items ∧ it₂ ∈ out₂.items ∧
      it₁.content = it₂.content ∧ it₁.content_sha256 = it₂.content_sha256 := by
  refine ⟨_, _, _, _, rfl, rfl, List.mem_cons_self _ _, List.mem_cons_self _ _, by decide, ?_⟩
  exact claim_C1_hash_purity dsA 1 0 "first" "cot" none true dsB 1 0 "first" "cot" none true
    _ _ _ _ rfl rfl (List.mem_cons_self _ _) (List.mem_cons_self _ _) (by decide)

/-- C7: for every row source and every `n > 0` (with a provider whose seeded
shuffles preserve the number of rows), `build_slice` succeeds on normalizable
rows — every sampled row's problem probe is not Python `None`, the source's
`problem is not None` test — and produces exactly `min(n, available)` items:
it stops after `n` items or when the source is exhausted, and a short source
yields fewer items with no error. -/
theorem claim_C7_min_count
    (ds : Dataset) (n seed : Int) (method split : String) (rev : Option String) (st : Bool)
    (hn : 0 < n)
    (hb : ∀ s b, (ds.shuffleBuffered s b).length = ds.rows.length)
    (hf : ∀ s, (ds.shuffleFull s).length = ds.rows.length)
    (hok : ∀ r ∈ sampledRows ds n seed method st, hasProblemField r = true) :
    ∃ out, build_slice ds n seed method split rev st = .ok out ∧
      out.items.length = min n.toNat ds.rows.length := by
  obtain ⟨its, hits⟩ := normalizeRows_ok_iff.mpr hok
  have hlen : (methodRows ds seed method st).length = ds.rows.length := by
    by_cases hm : method = "shuffle"
    · cases st
      · simpa [methodRows, hm] using hf seed
      · simpa [methodRows, hm] using hb seed 10000
    · simp [methodRows, hm]
  refine ⟨_, by rw [build_slice_eq, hits], ?_⟩
  rw [normalizeRows_length hits, sampledRows_length, hlen]

theorem claim_C7_witness :
    ∃ out, build_slice dsFifty 200 0 "first" "cot" none true = .ok out ∧
      out.items.length = 50 := by
  obtain ⟨out, h1, h2⟩ := claim_C7_min_count dsFifty 200 0 "first" "cot" none true
    (by decide) (fun _ _ => rfl) (fun _ => rfl) (by decide)
  exact ⟨out, h1, by rw [h2]; decide⟩

/-- C8 (amended): normalization raises a schema error iff the problem probe
yields Python `None` for some sampled row — no candidate field present, or
the first present candidate (in the fixed priority order) holding the stored
`None` — and the raised error carries the sorted available field names of the
first offending row.  (`hasProblemField` is the source's `problem is not
None`; the original claim's contains-no-candidate-field reading is refuted by
`claim_C8_counterexample`.) -/
theorem claim_C8_schema_error
    (ds : Dataset) (n seed : Int) (method split : String) (rev : Option String) (st : Bool) :
    ((∃ e, build_slice ds n seed method split rev st = .error e) ↔
      ∃ r ∈ sampledRows ds n seed method st, hasProblemField r = false) ∧
    (∀ e, build_slice ds n seed method split rev st = .error e →
      ∃ r, (sampledRows ds n seed method st).find? (fun r => !hasProblemField r) = some r ∧
        e.keys = pySortedStrings (rowKeys r)) := by
  constructor
  · constructor
    · rintro ⟨e, he⟩
      rw [build_slice_eq] at he
      cases hn : normalizeRows split 0 (sampledRows ds n seed method st) with
      | error e2 =>
          obtain ⟨r, hfind, _⟩ := normalizeRows_error hn
          refine ⟨r, List.mem_of_find?_eq_some hfind, ?_⟩
          have := List.find?_some hfind
          simpa using this
      | ok its => rw [hn] at he; exact absurd he (by simp)
    · rintro ⟨r, hr, hp⟩
      cases hn : normalizeRows split 0 (sampledRows ds n seed method st) with
      | error e => exact ⟨e, by rw [build_slice_eq, hn]⟩
      | ok its => exact absurd (normalizeRows_ok_iff.mp ⟨its, hn⟩ r hr) (by simp [hp])
  · intro e he
    rw [build_slice_eq] at he
    cases hn : normalizeRows split 0 (sampledRows ds n seed method st) with
    | error e2 =>
        rw [hn] at he
        simp only [Except.error.injEq] at he
        obtain ⟨r, hfind, hkeys⟩ := normalizeRows_error hn
        subst he
        exact ⟨r, hfind, by rw [hkeys]⟩
    | ok its => rw [hn] at he; exact absurd he (by simp)

theorem claim_C8_witness :
    build_slice dsFoo 1 0 "first" "cot" none true = .error ⟨["foo"]⟩ ∧
    (∃ e, build_slice dsFoo 1 0 "first" "cot" none true = .error e) ∧
    (∀ e, build_slice dsFoo 1 0 "first" "cot" none true = .error e → e.keys = ["foo"]) := by
  have hsamp : sampledRows dsFoo 1 0 "first" true = [rowFoo] := rfl
  refine ⟨rfl, ?_, ?_⟩
  · exact (claim_C8_schema_error dsFoo 1 0 "first" "cot" none true).1.mpr
      ⟨rowFoo, by rw [hsamp]; exact List.mem_cons_self _ _, by decide⟩
  · intro e he
    obtain ⟨r, hfind, hkeys⟩ := (claim_C8_schema_error dsFoo 1 0 "first" "cot" none true).2 e he
    have hconc : (sampledRows dsFoo 1 0 "first" true).find? (fun r => !hasProblemField r)
        = some rowFoo := rfl
    have hr : r = rowFoo := Option.some.inj (hfind.symm.trans hconc)
    subst hr
    rw [hkeys]
    decide

/-- C8 counterexample: the row `{"problem": None}` does contain a
problem-text candidate field, yet the build raises the schema error — the
source's probe returns the stored `None` and the `is None` check fires — so
the original claim's "error iff some sampled row contains none of the
candidate fields" fails in the only-if direction. -/
theorem claim_C8_counterexample :
    rowHasKey rowNullProblem "problem" = true ∧
    build_slice dsNullProblem 1 0 "first" "cot" none true = .error ⟨["problem"]⟩ :=
  ⟨rfl, rfl⟩

theorem sliceHashChars_length (spec : SliceSpec) : (sliceHashChars spec).length = 12 := by
  rw [sliceHashChars, List.length_take, sha256HexChars_length]
  decide

theorem sliceIdChars_decomp (spec : SliceSpec) :
    sliceIdChars spec =
      ("slice_omr_".data ++ spec.split.data ++ "_".data ++ spec.method.data ++ "_n".data
        ++ pyIntChars spec.n ++ "_s".data)
      ++ (pyIntChars spec.seed ++ "_".data ++ sliceHashChars spec) := by
  simp [sliceIdChars, List.append_assoc]

/-- C5: `slice_id` is a deterministic function of the parameter tuple alone
(`write_slice` derives the artifact path from it before reading any row
data), identical parameters give identical ids, and changing the seed alone
changes the id. -/
theorem claim_C5_slice_id :
    (∀ s₁ s₂ : SliceSpec, s₁ = s₂ → sliceId s₁ = sliceId s₂) ∧
    (∀ (fs : FS) (out : String) (spec : SliceSpec) (ds : Dataset) (now p : String),
      (write_slice fs out spec ds now).result = .ok p → p = joinPath out (sliceId spec)) ∧
    (∀ s₁ s₂ : SliceSpec, s₁.split = s₂.split → s₁.method = s₂.method → s₁.n = s₂.n →
      s₁.seed ≠ s₂.seed → sliceId s₁ ≠ sliceId s₂) := by
  refine ⟨fun s₁ s₂ h => by rw [h], ?_, ?_⟩
  · intro fs out spec ds now p h
    rw [write_slice] at h
    by_cases h1 : fs.pathExists (joinPath out (sliceId spec))
    · rw [if_pos h1] at h
      by_cases h2 : fs.pathExists (joinPath (joinPath out (sliceId spec)) "manifest.json")
          && fs.pathExists (joinPath (joinPath out (sliceId spec)) "items.jsonl")
      · rw [if_pos h2] at h
        simpa using h.symm
      · rw [if_neg h2] at h
        exact absurd h (by simp)
    · rw [if_neg h1] at h
      cases hb : build_slice ds spec.n spec.seed spec.method spec.split spec.revision
          spec.streaming with
      | error e => rw [hb] at h; exact absurd h (by simp)
      | ok built => rw [hb] at h; simpa using h.symm
  · intro s₁ s₂ hsplit hmethod hn hseed hcontra
    apply hseed
    have hdata : sliceIdChars s₁ = sliceIdChars s₂ := congrArg String.data hcontra
    rw [sliceIdChars_decomp, sliceIdChars_decomp, hsplit, hmethod, hn] at hdata
    have htail := List.append_cancel_left hdata
    have hlen : (sliceHashChars s₁).length = (sliceHashChars s₂).length := by
      rw [sliceHashChars_length, sliceHashChars_length]
    have h1 := (List.append_inj' htail hlen).1
    exact pyIntChars_injective (List.append_inj' h1 rfl).1

theorem claim_C5_witness :
    sliceId ⟨200, 1337, "shuffle", "cot", none, true⟩
      ≠ sliceId ⟨200, 1338, "shuffle", "cot", none, true⟩ ∧
    sliceId ⟨200, 1337, "shuffle", "cot", none, true⟩
      = sliceId ⟨200, 1337, "shuffle", "cot", none, true⟩ :=
  ⟨claim_C5_slice_id.2.2 _ _ rfl rfl rfl (by decide), claim_C5_slice_id.1 _ _ rfl⟩

theorem FS.pathExists_of_readFile {fs : FS} {p c : String} (h : fs.readFile p = some c) :
    fs.pathExists p = true := by
  rw [FS.readFile] at h
  cases hf : fs.files.find? (·.1 == p) with
  | none => rw [hf] at h; exact absurd h (by simp)
  | some pr =>
      have hmem := List.mem_of_find?_eq_some hf
      have hp := List.find?_some hf
      rw [FS.pathExists, FS.fileExists]
      have : fs.files.any (·.1 == p) = true := List.any_eq_true.mpr ⟨pr, hmem, hp⟩
      rw [this, Bool.or_true]

/-- C3: if the target slice directory exists and both output files are present
(and non-empty), `write_slice` returns the existing directory unchanged,
leaves the filesystem untouched and never invokes the upstream provider. -/
theorem claim_C3_idempotent
    (fs : FS) (out : String) (spec : SliceSpec) (ds : Dataset) (now : String)
    (hdir : fs.pathExists (joinPath out (sliceId spec)) = true)
    (hm : ∃ c, fs.readFile (joinPath (joinPath out (sliceId spec)) "manifest.json") = some c
      ∧ c ≠ "")
    (hi : ∃ c, fs.readFile (joinPath (joinPath out (sliceId spec)) "items.jsonl") = some c
      ∧ c ≠ "") :
    write_slice fs out spec ds now = ⟨.ok (joinPath out (sliceId spec)), fs, false⟩ := by
  obtain ⟨cm, hmr, -⟩ := hm
  obtain ⟨ci, hir, -⟩ := hi
  have h2 := FS.pathExists_of_readFile hmr
  have h3 := FS.pathExists_of_readFile hir
  rw [write_slice, if_pos hdir, if_pos (by simp [h2, h3])]

theorem joinPath_data (a b : String) : (joinPath a b).data = a.data ++ '/' :: b.data := by
  rw [joinPath, String.data_append, String.data_append, List.append_assoc]
  rfl

theorem joinPath_ne_of_data_ne {a b c : String} (h : b.data ≠ c.data) :
    joinPath a b ≠ joinPath a c := by
  intro he
  have hd := congrArg String.data he
  rw [joinPath_data, joinPath_data] at hd
  have h2 := List.append_cancel_left hd
  exact h (List.cons.inj h2).2

theorem self_ne_joinPath (a b : String) : a ≠ joinPath a b := by
  intro he
  have hd := congrArg List.length (congrArg String.data he)
  rw [joinPath_data] at hd
  simp at hd

theorem claim_C3_witness :
    write_slice fsComplete "out" specW dsFoo "t" = ⟨.ok dirW, fsComplete, false⟩ := by
  have hmi : joinPath dirW "manifest.json" ≠ joinPath dirW "items.jsonl" :=
    joinPath_ne_of_data_ne (by decide)
  have him : joinPath dirW "items.jsonl" ≠ joinPath dirW "manifest.json" := fun h => hmi h.symm
  refine claim_C3_idempotent fsComplete "out" specW dsFoo "t" ?_ ⟨"m", ?_, by decide⟩
    ⟨"i", ?_, by decide⟩
  · show fsComplete.pathExists dirW = true
    simp [fsComplete, FS.pathExists, FS.dirExists]
  · show fsComplete.readFile (joinPath dirW "manifest.json") = some "m"
    simp [fsComplete, FS.readFile, List.find?]
  · show fsComplete.readFile (joinPath dirW "items.jsonl") = some "i"
    simp [fsComplete, FS.readFile, List.find?, beq_eq_false_iff_ne.mpr hmi]

/-- C4: if the slice directory exists but at least one of the two required
files is missing, `write_slice` raises the conflict error and deletes,
modifies and overwrites nothing (the filesystem is returned unchanged and the
provider is not invoked). -/
theorem claim_C4_conflict
    (fs : FS) (out : String) (spec : SliceSpec) (ds : Dataset) (now : String)
    (hdir : fs.pathExists (joinPath out (sliceId spec)) = true)
    (hmiss : fs.pathExists (joinPath (joinPath out (sliceId spec)) "manifest.json") = false ∨
             fs.pathExists (joinPath (joinPath out (sliceId spec)) "items.jsonl") = false) :
    write_slice fs out spec ds now =
      ⟨.error (.conflict (joinPath out (sliceId spec))), fs, false⟩ := by
  rw [write_slice, if_pos hdir, if_neg (by rcases hmiss with h | h <;> simp [h])]

theorem claim_C4_witness :
    write_slice fsPartial "out" specW dsFoo "t" =
      ⟨.error (.conflict dirW), fsPartial, false⟩ := by
  have hne1 : dirW ≠ joinPath dirW "manifest.json" := self_ne_joinPath _ _
  have hne2 : joinPath dirW "items.jsonl" ≠ joinPath dirW "manifest.json" :=
    joinPath_ne_of_data_ne (by decide)
  refine claim_C4_conflict fsPartial "out" specW dsFoo "t" ?_ (Or.inl ?_)
  · show fsPartial.pathExists dirW = true
    simp [fsPartial, FS.pathExists, FS.dirExists]
  · show fsPartial.pathExists (joinPath dirW "manifest.json") = false
    simp [fsPartial, FS.pathExists, FS.dirExists, FS.fileExists,
      beq_eq_false_iff_ne.mpr hne1, beq_eq_false_iff_ne.mpr hne2]

/-- C2 (code-bug exhibit): on a schema error the build aborts only after the
slice directory has already been created, so `write_slice` leaves behind a
directory containing neither `items.jsonl` nor `manifest.json` —
contradicting "fully materialized or not present at all". -/
theorem claim_C2_partial_artifact :
    (write_slice ⟨[], []⟩ "out" specW dsFoo "t").result = .error (.schema ⟨["foo"]⟩) ∧
    (write_slice ⟨[], []⟩ "out" specW dsFoo "t").fs.dirExists
      (joinPath "out" (sliceId specW)) = true ∧
    (write_slice ⟨[], []⟩ "out" specW dsFoo "t").fs.fileExists
      (joinPath (joinPath "out" (sliceId specW)) "items.jsonl") = false ∧
    (write_slice ⟨[], []⟩ "out" specW dsFoo "t").fs.fileExists
      (joinPath (joinPath "out" (sliceId specW)) "manifest.json") = false := by
  have hpe : FS.pathExists ⟨[], []⟩ (joinPath "out" (sliceId specW)) = false := rfl
  have hb : build_slice dsFoo specW.n specW.seed specW.method specW.split specW.revision
      specW.streaming = .error ⟨["foo"]⟩ := rfl
  have hw : write_slice ⟨[], []⟩ "out" specW dsFoo "t"
      = ⟨.error (.schema ⟨["foo"]⟩), ⟨[joinPath "out" (sliceId specW)], []⟩, true⟩ := by
    rw [write_slice, if_neg (by simp [hpe]), hb]
    rfl
  rw [hw]
  refine ⟨rfl, ?_, rfl, rfl⟩
  simp [FS.dirExists]

theorem item_id_of_source_id_inj (split : String) :
    Function.Injective (fun s => "omr:" ++ split ++ ":" ++ s) := by
  intro a b h
  have hd := congrArg String.data h
  rw [String.data_append, String.data_append] at hd
  exact string_data_inj (List.append_cancel_left hd)

/-- C9 (amended): every item's `item_id` is exactly
`"omr:<split>:<source_id>"`, where `source_id` is resolved by
`_infer_source_id` from the sampled row at the item's positional index; the
item ids of a slice are pairwise distinct exactly when the resolved source
ids are — the build itself does not enforce uniqueness. -/
theorem claim_C9_item_id_format
    (ds : Dataset) (n seed : Int) (method split : String) (rev : Option String) (st : Bool)
    (out : BuildOutput)
    (h : build_slice ds n seed method split rev st = .ok out) :
    (∀ it ∈ out.items, it.item_id = "omr:" ++ split ++ ":" ++ it.source.source_id) ∧
    (∀ j (hj : j < out.items.length) (hr : j < (sampledRows ds n seed method st).length),
      (out.items.get ⟨j, hj⟩).source.source_id
        = _infer_source_id ((sampledRows ds n seed method st).get ⟨j, hr⟩) j) ∧
    ((out.items.map (·.item_id)).Nodup ↔ (out.items.map (·.source.source_id)).Nodup) := by
  have hrows := build_slice_items h
  refine ⟨?_, ?_, ?_⟩
  · intro it hit
    obtain ⟨j, r, hn⟩ := normalizeRows_mem hrows it hit
    obtain ⟨-, h1, h2⟩ := normalizeRow_fields hn
    rw [h1, h2]
  · intro j hj hr
    have := normalizeRows_get hrows j hj hr
    rw [Nat.zero_add] at this
    exact (normalizeRow_fields this).2.2
  · have hmap : out.items.map (·.item_id)
        = (out.items.map (·.source.source_id)).map (fun s => "omr:" ++ split ++ ":" ++ s) := by
      rw [List.map_map]
      apply List.map_congr_left
      intro it hit
      obtain ⟨j, r, hn⟩ := normalizeRows_mem hrows it hit
      obtain ⟨-, h1, h2⟩ := normalizeRow_fields hn
      simp only [Function.comp]
      rw [h1, h2]
    constructor
    · intro hd
      rw [hmap] at hd
      exact hd.of_map
    · intro hd
      rw [hmap]
      exact hd.map (item_id_of_source_id_inj split)

/-- C9 counterexample: two sampled rows sharing the upstream id `"x"` yield a
slice whose two items carry the identical `item_id`, refuting uniqueness as
stated. -/
theorem claim_C9_counterexample :
    (build_slice dsDup 2 0 "first" "cot" none true).map (fun o => o.items.map (·.item_id))
      = .ok ["omr:cot:x", "omr:cot:x"] ∧
    ¬ (["omr:cot:x", "omr:cot:x"] : List String).Nodup := by
  exact ⟨rfl, by decide⟩

theorem claim_C9_witness :
    ∃ out, build_slice dsDup 2 0 "first" "cot" none true = .ok out ∧
      (∀ it ∈ out.items, it.item_id = "omr:" ++ "cot" ++ ":" ++ it.source.source_id) := by
  refine ⟨_, rfl, ?_⟩
  exact (claim_C9_item_id_format dsDup 2 0 "first" "cot" none true _ rfl).1

theorem intercalate_pair (A B : List Char) : List.intercalate [','] [A, B] = A ++ ',' :: B := by
  simp [List.intercalate, List.intersperse]

/-- C10: the `content` record always carries exactly the two keys `problem`
and `final_answer`; when the answer probe yields Python `None` — in
particular when no answer candidate field is present in the upstream row —
the value is `null` rather than omitted, the null-valued key appears in the
canonical encoding, and the encoding (hence the hash input) differs from a
problem-only content — exhibited concretely on the digests. -/
theorem claim_C10_null_final_answer :
    (∀ (split : String) (i : Nat) (r : Row) (it : Item),
      normalizeRow split i r = .ok it →
      (_get_first_present r ["final_answer", "expected_answer", "answer",
        "expected_output"]).isNull = true →
      it.content.final_answer = none) ∧
    (∀ p : String, dumpChars (contentJson ⟨p, none⟩)
      = '{' :: "\"final_answer\":null,\"problem\":".data ++ escapeString p ++ ['}']) ∧
    (∀ c : ItemContent, dumpChars (contentJson c) ≠ dumpChars (.obj [("problem", .str c.problem)])) ∧
    (_sha256_str (_canonical_json (contentJson ⟨"2+2", none⟩))
      ≠ _sha256_str (_canonical_json (.obj [("problem", .str "2+2")]))) := by
  refine ⟨?_, ?_, ?_, by decide⟩
  · intro split i r it h ha
    rw [normalizeRow] at h
    by_cases hp : (_get_first_present r ["problem", "question", "prompt"]).isNull
    · rw [if_pos hp] at h
      exact Except.noConfusion h
    · rw [if_neg hp] at h
      have h2 := Except.ok.inj h
      rw [← h2]
      show (if (_get_first_present r ["final_answer", "expected_answer", "answer",
          "expected_output"]).isNull = true then none
        else some (pyStr (_get_first_present r ["final_answer", "expected_answer", "answer",
          "expected_output"]))) = none
      rw [if_pos ha]
  · intro p
    have hsort : (List.insertionSort keyLE
          (dumpMembers [("problem", Json.str p), ("final_answer", Json.null)])).map renderMember
        = [renderMember ("final_answer", dumpChars Json.null),
           renderMember ("problem", dumpChars (Json.str p))] := rfl
    show dumpChars (.obj [("problem", .str p), ("final_answer", .null)]) = _
    rw [dumpChars, hsort, intercalate_pair]
    have h1 : renderMember ("final_answer", dumpChars Json.null)
        = ['"', 'f', 'i', 'n', 'a', 'l', '_', 'a', 'n', 's', 'w', 'e', 'r', '"', ':',
           'n', 'u', 'l', 'l'] := rfl
    have h2 : renderMember ("problem", dumpChars (Json.str p))
        = ['"', 'p', 'r', 'o', 'b', 'l', 'e', 'm', '"', ':'] ++ escapeString p := rfl
    have h3 : ("\"final_answer\":null,\"problem\":".data : List Char)
        = ['"', 'f', 'i', 'n', 'a', 'l', '_', 'a', 'n', 's', 'w', 'e', 'r', '"', ':',
           'n', 'u', 'l', 'l', ',', '"', 'p', 'r', 'o', 'b', 'l', 'e', 'm', '"', ':'] := rfl
    rw [h1, h2, h3]
    simp [List.append_assoc]
  · intro c h
    obtain ⟨p, fa⟩ := c
    cases fa with
    | none =>
        have h2 : (some 'f' : Option Char) = some 'p' := congrArg (fun l => l[2]?) h
        simp at h2
    | some a =>
        have h2 : (some 'f' : Option Char) = some 'p' := congrArg (fun l => l[2]?) h
        simp at h2

theorem claim_C10_witness :
    ∃ it, normalizeRow "cot" 0 [("problem", Json.str "p")] = .ok it ∧
      it.content.final_answer = none := by
  refine ⟨_, rfl, ?_⟩
  exact claim_C10_null_final_answer.1 "cot" 0 [("problem", Json.str "p")] _ rfl rfl

/-! ### Structure lemmas for the canonical encoder -/

theorem dumpMembers_eq_map (kvs : List (String × Json)) :
    dumpMembers kvs = kvs.map fun kv => (kv.1, dumpChars kv.2) := by
  induction kvs with
  | nil => rfl
  | cons kv kvs ih => obtain ⟨k, v⟩ := kv; rw [dumpMembers, ih]; rfl

theorem dumpList_eq_map (xs : List Json) : dumpList xs = xs.map dumpChars := by
  induction xs with
  | nil => rfl
  | cons x xs ih => rw [dumpList, ih]; rfl

theorem canonMembers_eq_map (kvs : List (String × Json)) :
    canonMembers kvs = kvs.map fun kv => (kv.1, canon kv.2) := by
  induction kvs with
  | nil => rfl
  | cons kv kvs ih => obtain ⟨k, v⟩ := kv; rw [canonMembers, ih]; rfl

/-- Strong induction over `Json` with membership-style hypotheses for the
nested lists. -/
theorem json_ind (P : Json → Prop)
    (hnull : P .null) (hbool : ∀ b, P (.bool b)) (hint : ∀ n, P (.int n))
    (hstr : ∀ s, P (.str s))
    (harr : ∀ xs, (∀ x ∈ xs, P x) → P (.arr xs))
    (hobj : ∀ kvs, (∀ kv ∈ kvs, P kv.2) → P (.obj kvs)) : ∀ j, P j := by
  have H : ∀ n (j : Json), sizeOf j ≤ n → P j := by
    intro n
    induction n with
    | zero => intro j hj; cases j <;> simp_arith at hj
    | succ n ih =>
        intro j hj
        match j with
        | .null => exact hnull
        | .bool b => exact hbool b
        | .int m => exact hint m
        | .str s => exact hstr s
        | .arr xs =>
            refine harr xs fun x hx => ih x ?_
            have := List.sizeOf_lt_of_mem hx
            simp only [Json.arr.sizeOf_spec] at hj
            omega
        | .obj kvs =>
            refine hobj kvs fun kv hkv => ih kv.2 ?_
            have h1 := List.sizeOf_lt_of_mem hkv
            obtain ⟨k, v⟩ := kv
            simp only [Json.obj.sizeOf_spec] at hj
            simp only [Prod.mk.sizeOf_spec] at h1
            simp only []
            omega
  exact fun j => H (sizeOf j) j (le_refl _)

theorem dumpMembers_insertionSort (kvs : List (String × Json)) :
    dumpMembers (List.insertionSort keyLE kvs) = List.insertionSort keyLE (dumpMembers kvs) := by
  rw [dumpMembers_eq_map, dumpMembers_eq_map]
  exact List.map_insertionSort keyLE keyLE _ kvs fun a _ b _ => Iff.rfl

theorem canonMembers_insertionSort (kvs : List (String × Json)) :
    canonMembers (List.insertionSort keyLE kvs) = List.insertionSort keyLE (canonMembers kvs) := by
  rw [canonMembers_eq_map, canonMembers_eq_map]
  exact List.map_insertionSort keyLE keyLE _ kvs fun a _ b _ => Iff.rfl

theorem insertionSort_keyLE_sorted {β : Type _} (l : List (String × β)) :
    (List.insertionSort keyLE l).Sorted keyLE := by
  haveI : IsTotal (String × β) keyLE := ⟨keyLE_total⟩
  haveI : IsTrans (String × β) keyLE := ⟨fun _ _ _ => keyLE_trans⟩
  exact List.sorted_insertionSort keyLE l

theorem insertionSort_keyLE_idem {β : Type _} (l : List (String × β)) :
    List.insertionSort keyLE (List.insertionSort keyLE l) = List.insertionSort keyLE l :=
  (insertionSort_keyLE_sorted l).insertionSort_eq

/-- Two sorted member lists that are permutations of each other and have
pairwise-distinct keys are equal. -/
theorem sorted_perm_nodup_keys_eq {β : Type _} :
    ∀ {l₁ l₂ : List (String × β)}, l₁.Perm l₂ → l₁.Sorted keyLE → l₂.Sorted keyLE →
      (l₁.map Prod.fst).Nodup → l₁ = l₂ := by
  intro l₁
  induction l₁ with
  | nil => intro l₂ hp _ _ _; exact (hp.nil_eq).symm ▸ rfl
  | cons a t₁ ih =>
      intro l₂ hp hs₁ hs₂ hn
      cases l₂ with
      | nil => exact absurd hp.symm (by simp)
      | cons b t₂ =>
          have hab : a = b := by
            have hbmem : b ∈ a :: t₁ := hp.mem_iff.mpr (List.mem_cons_self b t₂)
            have hamem : a ∈ b :: t₂ := hp.mem_iff.mp (List.mem_cons_self a t₁)
            rcases List.mem_cons.mp hbmem with rfl | hbt
            · rfl
            · rcases List.mem_cons.mp hamem with rfl | hat
              · rfl
              · have h1 : keyLE a b := (List.sorted_cons.mp hs₁).1 b hbt
                have h2 : keyLE b a := (List.sorted_cons.mp hs₂).1 a hat
                have hk : a.1 = b.1 := keyLE_antisymm h1 h2
                exfalso
                have : a.1 ∈ t₁.map Prod.fst := by
                  rw [hk]
                  exact List.mem_map_of_mem Prod.fst hbt
                exact (List.nodup_cons.mp hn).1 this
          subst hab
          have hp' := hp.cons_inv
          exact congrArg (a :: ·)
            (ih hp' (List.sorted_cons.mp hs₁).2 (List.sorted_cons.mp hs₂).2
              (List.nodup_cons.mp hn).2)

/-! ### Character-level lemmas about the encoder output -/

theorem hexDigit_toNat (x : Nat) :
    48 ≤ (hexDigit x).toNat ∧ (hexDigit x).toNat ≤ 102 := by
  unfold hexDigit
  split <;> decide

theorem escapeChar_mem {d c : Char} (h : c ∈ escapeChar d) :
    32 ≤ c.toNat ∧ (c = ' ' → d = ' ') := by
  simp only [escapeChar] at h
  split_ifs at h with h1 h2 h3 h4 h5 h6 h7 h8
  · simp only [List.mem_cons, List.not_mem_nil, or_false] at h
    rcases h with rfl | rfl <;> exact ⟨by decide, fun hc => absurd hc (by decide)⟩
  · simp only [List.mem_cons, List.not_mem_nil, or_false] at h
    rcases h with rfl | rfl <;> exact ⟨by decide, fun hc => absurd hc (by decide)⟩
  · simp only [List.mem_cons, List.not_mem_nil, or_false] at h
    rcases h with rfl | rfl <;> exact ⟨by decide, fun hc => absurd hc (by decide)⟩
  · simp only [List.mem_cons, List.not_mem_nil, or_false] at h
    rcases h with rfl | rfl <;> exact ⟨by decide, fun hc => absurd hc (by decide)⟩
  · simp only [List.mem_cons, List.not_mem_nil, or_false] at h
    rcases h with rfl | rfl <;> exact ⟨by decide, fun hc => absurd hc (by decide)⟩
  · simp only [List.mem_cons, List.not_mem_nil, or_false] at h
    rcases h with rfl | rfl <;> exact ⟨by decide, fun hc => absurd hc (by decide)⟩
  · simp only [List.mem_cons, List.not_mem_nil, or_false] at h
    rcases h with rfl | rfl <;> exact ⟨by decide, fun hc => absurd hc (by decide)⟩
  · simp only [List.mem_cons, List.not_mem_nil, or_false] at h
    have hx1 := hexDigit_toNat (d.toNat / 16)
    have hx2 := hexDigit_toNat (d.toNat % 16)
    rcases h with rfl | rfl | rfl | rfl | rfl | rfl
    · exact ⟨by decide, fun hc => absurd hc (by decide)⟩
    · exact ⟨by decide, fun hc => absurd hc (by decide)⟩
    · exact ⟨by decide, fun hc => absurd hc (by decide)⟩
    · exact ⟨by decide, fun hc => absurd hc (by decide)⟩
    · refine ⟨by omega, fun hc => ?_⟩
      rw [hc] at hx1
      exact absurd hx1 (by decide)
    · refine ⟨by omega, fun hc => ?_⟩
      rw [hc] at hx2
      exact absurd hx2 (by decide)
  · simp only [List.mem_cons, List.not_mem_nil, or_false] at h
    subst h
    exact ⟨by omega, fun hc => hc⟩

theorem escapeString_mem {s : String} {c : Char} (h : c ∈ escapeString s) :
    c = '"' ∨ ∃ d ∈ s.data, c ∈ escapeChar d := by
  simp only [escapeString, escBody, List.mem_cons, List.mem_append, List.mem_singleton,
    List.not_mem_nil, or_false, List.mem_flatten, List.mem_map] at h
  rcases h with (h | ⟨l, ⟨d, hd, hl⟩, hc⟩) | h
  · exact Or.inl h
  · exact Or.inr ⟨d, hd, hl ▸ hc⟩
  · exact Or.inl h

theorem intercalate_comma_cons₂ (a b : List Char) (t : List (List Char)) :
    List.intercalate [','] (a :: b :: t) = a ++ ',' :: List.intercalate [','] (b :: t) := by
  simp [List.intercalate, List.intersperse]

theorem mem_intercalate_comma {c : Char} :
    ∀ parts : List (List Char), c ∈ List.intercalate [','] parts → c = ',' ∨ ∃ p ∈ parts, c ∈ p
  | [] => by simp [List.intercalate]
  | [a] => by
      simp [List.intercalate, List.intersperse]
      exact fun h => Or.inr h
  | a :: b :: t => by
      rw [intercalate_comma_cons₂]
      intro h
      rcases List.mem_append.mp h with h | h
      · exact Or.inr ⟨a, List.mem_cons_self _ _, h⟩
      · rcases List.mem_cons.mp h with rfl | h
        · exact Or.inl rfl
        · rcases mem_intercalate_comma (b :: t) h with h | ⟨p, hp, hc⟩
          · exact Or.inl h
          · exact Or.inr ⟨p, List.mem_cons_of_mem _ hp, hc⟩

theorem pyIntChars_mem {n : Int} {c : Char} (h : c ∈ pyIntChars n) :
    (48 ≤ c.toNat ∧ c.toNat ≤ 57) ∨ c = '-' := by
  cases n with
  | ofNat m => exact Or.inl (natDigits_all_digits m c h)
  | negSucc m =>
      rcases List.mem_cons.mp h with rfl | h
      · exact Or.inr rfl
      · exact Or.inl (natDigits_all_digits (m + 1) c h)

theorem jsonNoSpacesList_iff :
    ∀ {xs : List Json}, jsonNoSpacesList xs = true ↔ ∀ x ∈ xs, jsonNoSpaces x = true := by
  intro xs
  induction xs with
  | nil => simp [jsonNoSpacesList]
  | cons x xs ih => rw [jsonNoSpacesList]; simp [ih]

theorem jsonNoSpacesMembers_iff :
    ∀ {kvs : List (String × Json)}, jsonNoSpacesMembers kvs = true ↔
      ∀ kv ∈ kvs, noSpace kv.1 = true ∧ jsonNoSpaces kv.2 = true := by
  intro kvs
  induction kvs with
  | nil => simp [jsonNoSpacesMembers]
  | cons kv kvs ih =>
      obtain ⟨k, v⟩ := kv
      rw [jsonNoSpacesMembers]
      simp [ih, and_assoc]

theorem noSpace_not_mem {s : String} (h : noSpace s = true) : ' ' ∉ s.data := by
  rw [noSpace, Bool.not_eq_true'] at h
  intro hmem
  rw [show s.data.contains ' ' = true by simpa [List.contains] using hmem] at h
  exact absurd h (by decide)

theorem dump_chars_master :
    ∀ j : Json, ∀ c ∈ dumpChars j, 32 ≤ c.toNat ∧ (jsonNoSpaces j = true → c ≠ ' ') := by
  intro j
  induction j using json_ind with
  | hnull =>
      intro c hc
      simp only [dumpChars, List.mem_cons, List.not_mem_nil, or_false] at hc
      rcases hc with rfl | rfl | rfl | rfl <;> exact ⟨by decide, fun _ => by decide⟩
  | hbool b =>
      cases b <;>
      · intro c hc
        simp only [dumpChars, List.mem_cons, List.not_mem_nil, or_false] at hc
        rcases hc with rfl | rfl | rfl | rfl | rfl <;> exact ⟨by decide, fun _ => by decide⟩
  | hint n =>
      intro c hc
      simp only [dumpChars] at hc
      rcases pyIntChars_mem hc with ⟨h1, h2⟩ | rfl
      · refine ⟨by omega, fun _ heq => ?_⟩
        subst heq
        exact absurd h1 (by decide)
      · exact ⟨by decide, fun _ heq => absurd heq (by decide)⟩
  | hstr s =>
      intro c hc
      simp only [dumpChars] at hc
      rcases escapeString_mem hc with rfl | ⟨d, hd, hcd⟩
      · exact ⟨by decide, fun _ heq => absurd heq (by decide)⟩
      · obtain ⟨h1, h2⟩ := escapeChar_mem hcd
        refine ⟨h1, fun hns heq => ?_⟩
        have hd' : d = ' ' := h2 heq
        subst hd'
        exact noSpace_not_mem (by simpa [jsonNoSpaces] using hns) hd
  | harr xs ih =>
      intro c hc
      simp only [dumpChars] at hc
      rcases List.mem_append.mp hc with hc | hc
      · rcases List.mem_cons.mp hc with rfl | hc
        · exact ⟨by decide, fun _ heq => absurd heq (by decide)⟩
        · rcases mem_intercalate_comma _ hc with rfl | ⟨p, hp, hcp⟩
          · exact ⟨by decide, fun _ heq => absurd heq (by decide)⟩
          · rw [dumpList_eq_map] at hp
            obtain ⟨x, hx, rfl⟩ := List.mem_map.mp hp
            obtain ⟨h1, h2⟩ := ih x hx c hcp
            refine ⟨h1, fun hns => h2 ?_⟩
            exact jsonNoSpacesList_iff.mp (by simpa [jsonNoSpaces] using hns) x hx
      · simp only [List.mem_singleton] at hc
        subst hc
        exact ⟨by decide, fun _ heq => absurd heq (by decide)⟩
  | hobj kvs ih =>
      intro c hc
      simp only [dumpChars] at hc
      rcases List.mem_append.mp hc with hc | hc
      · rcases List.mem_cons.mp hc with rfl | hc
        · exact ⟨by decide, fun _ heq => absurd heq (by decide)⟩
        · rcases mem_intercalate_comma _ hc with rfl | ⟨p0, hp0, hcp⟩
          · exact ⟨by decide, fun _ heq => absurd heq (by decide)⟩
          · obtain ⟨p, hp, rfl⟩ := List.mem_map.mp hp0
            have hpmem : p ∈ dumpMembers kvs := (List.mem_insertionSort keyLE).mp hp
            rw [dumpMembers_eq_map] at hpmem
            obtain ⟨kv, hkv, rfl⟩ := List.mem_map.mp hpmem
            simp only [renderMember] at hcp
            rcases List.mem_append.mp hcp with hck | hcv
            · rcases escapeString_mem hck with rfl | ⟨d, hd, hcd⟩
              · exact ⟨by decide, fun _ heq => absurd heq (by decide)⟩
              · obtain ⟨h1, h2⟩ := escapeChar_mem hcd
                refine ⟨h1, fun hns heq => ?_⟩
                have hd' : d = ' ' := h2 heq
                subst hd'
                have hkey := (jsonNoSpacesMembers_iff.mp (by simpa [jsonNoSpaces] using hns)
                  kv hkv).1
                exact noSpace_not_mem hkey hd
            · rcases List.mem_cons.mp hcv with rfl | hcv
              · exact ⟨by decide, fun _ heq => absurd heq (by decide)⟩
              · obtain ⟨h1, h2⟩ := ih kv hkv c hcv
                refine ⟨h1, fun hns => h2 ?_⟩
                exact (jsonNoSpacesMembers_iff.mp (by simpa [jsonNoSpaces] using hns) kv hkv).2
      · simp only [List.mem_singleton] at hc
        subst hc
        exact ⟨by decide, fun _ heq => absurd heq (by decide)⟩

theorem newline_not_mem_dump (j : Json) : '\n' ∉ dumpChars j := fun h =>
  absurd (dump_chars_master j _ h).1 (by decide)

theorem canonList_eq_map (xs : List Json) : canonList xs = xs.map canon := by
  induction xs with
  | nil => rfl
  | cons x xs ih => rw [canonList, ih]; rfl

theorem dump_canon : ∀ j : Json, dumpChars (canon j) = dumpChars j := by
  intro j
  induction j using json_ind with
  | hnull => rfl
  | hbool b => cases b <;> rfl
  | hint n => rfl
  | hstr s => rfl
  | harr xs ih =>
      have h : dumpList (canonList xs) = dumpList xs := by
        rw [dumpList_eq_map, dumpList_eq_map, canonList_eq_map, List.map_map]
        exact List.map_congr_left fun x hx => ih x hx
      simp only [canon, dumpChars, h]
  | hobj kvs ih =>
      have h2 : dumpMembers (canonMembers kvs) = dumpMembers kvs := by
        rw [dumpMembers_eq_map, dumpMembers_eq_map, canonMembers_eq_map, List.map_map]
        refine List.map_congr_left fun kv hkv => ?_
        show (kv.1, dumpChars (canon kv.2)) = (kv.1, dumpChars kv.2)
        rw [ih kv hkv]
      simp only [canon, dumpChars, dumpMembers_insertionSort, h2, insertionSort_keyLE_idem]

theorem nodupB_iff : ∀ {l : List String}, nodupB l = true ↔ l.Nodup := by
  intro l
  induction l with
  | nil => simp [nodupB]
  | cons k ks ih =>
      rw [nodupB]
      simp only [Bool.and_eq_true, Bool.not_eq_true', List.nodup_cons, ih]
      constructor
      · rintro ⟨h1, h2⟩
        refine ⟨fun hm => ?_, h2⟩
        rw [show ks.contains k = true by simpa [List.contains] using hm] at h1
        exact absurd h1 (by decide)
      · rintro ⟨h1, h2⟩
        refine ⟨?_, h2⟩
        by_contra hc
        rw [Bool.not_eq_false] at hc
        exact h1 (by simpa [List.contains] using hc)

theorem wfList_iff : ∀ {xs : List Json}, wfList xs = true ↔ ∀ x ∈ xs, wfJson x = true := by
  intro xs
  induction xs with
  | nil => simp [wfList]
  | cons x xs ih => rw [wfList]; simp [ih]

theorem wfMembers_iff :
    ∀ {kvs : List (String × Json)}, wfMembers kvs = true ↔ ∀ kv ∈ kvs, wfJson kv.2 = true := by
  intro kvs
  induction kvs with
  | nil => simp [wfMembers]
  | cons kv kvs ih =>
      obtain ⟨k, v⟩ := kv
      rw [wfMembers]
      simp [ih]

theorem dumpMembers_keys (kvs : List (String × Json)) :
    (dumpMembers kvs).map Prod.fst = kvs.map Prod.fst := by
  rw [dumpMembers_eq_map, List.map_map]
  rfl

theorem dumpList_eq_of_zip :
    ∀ (xs ys : List Json), xs.length = ys.length →
      (∀ x y, (x, y) ∈ xs.zip ys → dumpChars x = dumpChars y) → dumpList xs = dumpList ys := by
  intro xs
  induction xs with
  | nil => intro ys hl _; cases ys with | nil => rfl | cons y ys => simp at hl
  | cons x xs ih =>
      intro ys hl hz
      cases ys with
      | nil => simp at hl
      | cons y ys =>
          rw [dumpList, dumpList, hz x y (by simp [List.zip]),
            ih ys (by simpa using hl) fun a b hab => hz a b (List.mem_cons_of_mem _ hab)]

theorem dumpMembers_eq_of_zip :
    ∀ (kvs mid : List (String × Json)), kvs.length = mid.length →
      (∀ k v k' v', ((k, v), (k', v')) ∈ kvs.zip mid → k = k' ∧ dumpChars v = dumpChars v') →
      dumpMembers kvs = dumpMembers mid := by
  intro kvs
  induction kvs with
  | nil => intro mid hl _; cases mid with | nil => rfl | cons m mid => simp at hl
  | cons kv kvs ih =>
      intro mid hl hz
      cases mid with
      | nil => simp at hl
      | cons m mid =>
          obtain ⟨k, v⟩ := kv
          obtain ⟨k', v'⟩ := m
          obtain ⟨hk, hv⟩ := hz k v k' v' (by simp [List.zip])
          rw [dumpMembers, dumpMembers, hk, hv,
            ih mid (by simpa using hl) fun a b a' b' hab => hz a b a' b'
              (List.mem_cons_of_mem _ hab)]

theorem dump_jequiv : ∀ (j₁ j₂ : Json), wfJson j₁ = true → JEquiv j₁ j₂ →
    dumpChars j₁ = dumpChars j₂ := by
  have H : ∀ (n : Nat) (j₁ j₂ : Json), sizeOf j₁ ≤ n → wfJson j₁ = true → JEquiv j₁ j₂ →
      dumpChars j₁ = dumpChars j₂ := by
    intro n
    induction n with
    | zero => intro j₁ j₂ hj _ _; cases j₁ <;> simp_arith at hj
    | succ n ih =>
        intro j₁ j₂
        cases j₁ <;> cases j₂
        case null.null => intro _ _ _; rfl
        case bool.bool a b =>
          intro _ _ he
          rw [show a = b by simpa [JEquiv] using he]
        case int.int a b =>
          intro _ _ he
          rw [show a = b by simpa [JEquiv] using he]
        case str.str a b =>
          intro _ _ he
          rw [show a = b by simpa [JEquiv] using he]
        case arr.arr xs ys =>
          intro hj hwf he
          rw [JEquiv] at he
          obtain ⟨hlen, hz⟩ := he
          have hd : dumpList xs = dumpList ys := by
            refine dumpList_eq_of_zip xs ys hlen fun x y hxy => ?_
            have hx := (List.of_mem_zip hxy).1
            have hs := List.sizeOf_lt_of_mem hx
            refine ih x y ?_ ?_ (hz x y hxy)
            · simp only [Json.arr.sizeOf_spec] at hj; omega
            · exact wfList_iff.mp (by simpa [wfJson] using hwf) x hx
          simp only [dumpChars, hd]
        case obj.obj kvs₁ kvs₂ =>
          intro hj hwf he
          rw [JEquiv] at he
          obtain ⟨mid, hlen, hz, hperm⟩ := he
          have hwf2 : nodupB (kvs₁.map Prod.fst) = true ∧ wfMembers kvs₁ = true := by
            simpa [wfJson] using hwf
          have hd : dumpMembers kvs₁ = dumpMembers mid := by
            refine dumpMembers_eq_of_zip kvs₁ mid hlen fun k v k' v' hkv => ?_
            have hx := (List.of_mem_zip hkv).1
            have hs := List.sizeOf_lt_of_mem hx
            obtain ⟨hk, hv⟩ := hz k v k' v' hkv
            refine ⟨hk, ih v v' ?_ ?_ hv⟩
            · simp only [Json.obj.sizeOf_spec] at hj
              simp only [Prod.mk.sizeOf_spec] at hs
              omega
            · exact wfMembers_iff.mp hwf2.2 (k, v) hx
          have hpm : (dumpMembers mid).Perm (dumpMembers kvs₂) := by
            rw [dumpMembers_eq_map, dumpMembers_eq_map]
            exact hperm.map _
          have hnd : ((List.insertionSort keyLE (dumpMembers kvs₁)).map Prod.fst).Nodup := by
            have h1 : ((List.insertionSort keyLE (dumpMembers kvs₁)).map Prod.fst).Perm
                ((dumpMembers kvs₁).map Prod.fst) :=
              (List.perm_insertionSort keyLE (dumpMembers kvs₁)).map _
            rw [h1.nodup_iff, dumpMembers_keys]
            exact nodupB_iff.mp hwf2.1
          have hsorteq : List.insertionSort keyLE (dumpMembers kvs₁)
              = List.insertionSort keyLE (dumpMembers kvs₂) := by
            refine sorted_perm_nodup_keys_eq ?_ (insertionSort_keyLE_sorted _)
              (insertionSort_keyLE_sorted _) hnd
            refine ((List.perm_insertionSort keyLE _).trans ?_).trans
              (List.perm_insertionSort keyLE _).symm
            rw [hd]
            exact hpm
          simp only [dumpChars, hsorteq]
        all_goals (intro _ _ he; rw [JEquiv.eq_def] at he; simp at he)
  exact fun j₁ j₂ hwf he => H (sizeOf j₁) j₁ j₂ (le_refl _) hwf he

/-! ### Parser round-trip lemmas -/

theorem isWsChar_false_of_ge48 {c : Char} (h : 48 ≤ c.toNat) : isWsChar c = false := by
  simp only [isWsChar, Bool.or_eq_false_iff, decide_eq_false_iff_not]
  refine ⟨⟨⟨?_, ?_⟩, ?_⟩, ?_⟩ <;> (rintro rfl; exact absurd h (by decide))

theorem skipWs_not_ws {c : Char} {cs : List Char} (h : isWsChar c = false) :
    skipWs (c :: cs) = c :: cs := by
  rw [skipWs, if_neg (by simp [h])]

theorem dump_head (j : Json) :
    ∃ c cs, dumpChars j = c :: cs ∧ isWsChar c = false ∧ c ≠ ']' ∧ c ≠ '}' := by
  cases j with
  | null => exact ⟨'n', _, rfl, by decide⟩
  | bool b =>
      cases b with
      | false => exact ⟨'f', _, rfl, by decide⟩
      | true => exact ⟨'t', _, rfl, by decide⟩
  | int n =>
      cases n with
      | ofNat m =>
          rcases hd : natDigits m with _ | ⟨c, cs⟩
          · exact absurd hd (natDigits_ne_nil m)
          · have hdig := natDigits_all_digits m c (hd ▸ List.mem_cons_self c cs)
            refine ⟨c, cs, by simp [dumpChars, pyIntChars, hd], isWsChar_false_of_ge48 hdig.1,
              ?_, ?_⟩ <;> (rintro rfl; exact absurd hdig.2 (by decide))
      | negSucc m => exact ⟨'-', _, rfl, by decide⟩
  | str s => exact ⟨'"', _, rfl, by decide⟩
  | arr xs => exact ⟨'[', _, rfl, by decide⟩
  | obj kvs => exact ⟨'{', _, rfl, by decide⟩

theorem escapeChar_length_pos (c : Char) : 0 < (escapeChar c).length := by
  rw [escapeChar]
  split_ifs <;> simp

theorem escBody_length (cs : List Char) : cs.length ≤ ((cs.map escapeChar).flatten).length := by
  induction cs with
  | nil => simp
  | cons c cs ih =>
      simp only [List.map_cons, List.flatten_cons, List.length_cons, List.length_append]
      have := escapeChar_length_pos c
      omega

theorem hexVal_hexDigit {d : Nat} (h : d < 16) : hexVal (hexDigit d) = some d := by
  interval_cases d <;> decide

theorem takeWhile_all_append {p : Char → Bool} :
    ∀ {xs ys : List Char}, (∀ x ∈ xs, p x = true) → (∀ y, ys.head? = some y → p y = false) →
      (xs ++ ys).takeWhile p = xs ∧ (xs ++ ys).dropWhile p = ys := by
  intro xs
  induction xs with
  | nil =>
      intro ys hx hy
      cases ys with
      | nil => exact ⟨rfl, rfl⟩
      | cons y ys =>
          simp only [List.nil_append, List.takeWhile_cons, List.dropWhile_cons, hy y rfl]
          exact ⟨rfl, rfl⟩
  | cons x xs ih =>
      intro ys hx hy
      obtain ⟨h1, h2⟩ := ih (fun a ha => hx a (List.mem_cons_of_mem _ ha)) hy
      simp only [List.cons_append, List.takeWhile_cons, List.dropWhile_cons,
        hx x (List.mem_cons_self _ _), h1, h2]
      exact ⟨rfl, rfl⟩

theorem parseNat_digits {n : Nat} {rest : List Char}
    (hrest : ∀ y, rest.head? = some y → isDigitC y = false) :
    parseNatDigits (natDigits n ++ rest) = some (n, rest) := by
  have hall : ∀ x ∈ natDigits n, isDigitC x = true := by
    intro x hx
    have := natDigits_all_digits n x hx
    simp only [isDigitC, Bool.and_eq_true, decide_eq_true_eq]
    omega
  obtain ⟨h1, h2⟩ := takeWhile_all_append hall hrest
  rcases hd : natDigits n with _ | ⟨c, cs⟩
  · exact absurd hd (natDigits_ne_nil n)
  · rw [hd] at h1 h2
    rw [parseNatDigits, h1, h2]
    show some (charsVal (c :: cs), rest) = some (n, rest)
    rw [← hd, charsVal_natDigits]

theorem parseStrBody_rt :
    ∀ (cs : List Char) (fuel : Nat) (rest : List Char), cs.length + 1 ≤ fuel →
      parseStrBody fuel ((cs.map escapeChar).flatten ++ '"' :: rest) = some (cs, rest) := by
  intro cs
  induction cs with
  | nil =>
      intro fuel rest hf
      cases fuel with
      | zero => omega
      | succ f => simp [parseStrBody]
  | cons c cs ih =>
      intro fuel rest hf
      cases fuel with
      | zero => simp at hf
      | succ f =>
          have hf' : cs.length + 1 ≤ f := by simp only [List.length_cons] at hf; omega
          have hM := ih f rest hf'
          rw [List.map_cons, List.flatten_cons, List.append_assoc]
          by_cases h1 : c = '\\'
          · subst h1
            rw [show escapeChar '\\' = ['\\', '\\'] from by decide]
            simp [parseStrBody, unescapeChar, hM]
          by_cases h2 : c = '"'
          · subst h2
            rw [show escapeChar '"' = ['\\', '"'] from by decide]
            simp [parseStrBody, unescapeChar, hM]
          by_cases h3 : c = '\n'
          · subst h3
            rw [show escapeChar '\n' = ['\\', 'n'] from by decide]
            simp [parseStrBody, unescapeChar, hM]
          by_cases h4 : c = '\t'
          · subst h4
            rw [show escapeChar '\t' = ['\\', 't'] from by decide]
            simp [parseStrBody, unescapeChar, hM]
          by_cases h5 : c = '\r'
          · subst h5
            rw [show escapeChar '\r' = ['\\', 'r'] from by decide]
            simp [parseStrBody, unescapeChar, hM]
          by_cases h6 : c.toNat = 8
          · rw [escapeChar, if_neg h1, if_neg h2, if_neg h3, if_neg h4, if_neg h5, if_pos h6]
            simp [parseStrBody, unescapeChar, hM]
            rw [← h6, Char.ofNat_toNat]
          by_cases h7 : c.toNat = 12
          · rw [escapeChar, if_neg h1, if_neg h2, if_neg h3, if_neg h4, if_neg h5, if_neg h6,
              if_pos h7]
            simp [parseStrBody, unescapeChar, hM]
            rw [← h7, Char.ofNat_toNat]
          by_cases h8 : c.toNat < 32
          · rw [escapeChar, if_neg h1, if_neg h2, if_neg h3, if_neg h4, if_neg h5, if_neg h6,
              if_neg h7, if_pos h8]
            have hv1 : hexVal (hexDigit (c.toNat / 16)) = some (c.toNat / 16) :=
              hexVal_hexDigit (by omega)
            have hv2 : hexVal (hexDigit (c.toNat % 16)) = some (c.toNat % 16) :=
              hexVal_hexDigit (by omega)
            simp [parseStrBody, show hexVal '0' = some 0 from by decide, hv1, hv2, hM]
            rw [show c.toNat / 16 * 16 + c.toNat % 16 = c.toNat by omega, Char.ofNat_toNat]
          · rw [escapeChar, if_neg h1, if_neg h2, if_neg h3, if_neg h4, if_neg h5, if_neg h6,
              if_neg h7, if_neg h8]
            simp [parseStrBody, h1, h2, hM]

theorem intercalate_single (a : List Char) : List.intercalate [','] [a] = a := by
  simp [List.intercalate, List.intersperse]

theorem intercalate_comma_head (a : List Char) (t : List (List Char)) :
    ∃ T, List.intercalate [','] (a :: t) = a ++ T := by
  cases t with
  | nil => exact ⟨[], by simp [List.intercalate, List.intersperse]⟩
  | cons b t => exact ⟨',' :: List.intercalate [','] (b :: t), intercalate_comma_cons₂ a b t⟩

theorem jfuel_pos (j : Json) : 1 ≤ jfuel j := by
  cases j <;> (rw [jfuel]) <;> omega

theorem jfuelM_eq_sum (kvs : List (String × Json)) :
    jfuelM kvs = (kvs.map fun kv => jfuel kv.2 + 1).sum := by
  induction kvs with
  | nil => rfl
  | cons kv kvs ih =>
      obtain ⟨k, v⟩ := kv
      rw [jfuelM, ih]
      simp [List.sum_cons]
      omega

theorem jfuelM_perm {l₁ l₂ : List (String × Json)} (h : l₁.Perm l₂) : jfuelM l₁ = jfuelM l₂ := by
  rw [jfuelM_eq_sum, jfuelM_eq_sum]
  exact List.Perm.sum_eq (h.map _)

theorem renderMember_cons (p : String × List Char) :
    renderMember p = '"' :: (escBody p.1 ++ ('"' :: ':' :: p.2)) := by
  simp [renderMember, escapeString, List.append_assoc]

theorem parseVal_digit_head (f : Nat) (c : Char) (cs : List Char)
    (h48 : 48 ≤ c.toNat) (h57 : c.toNat ≤ 57) :
    parseVal (f + 1) (c :: cs) =
      (parseNatDigits (c :: cs)).map fun p => (Json.int (p.1 : Int), p.2) := by
  rw [parseVal, skipWs_not_ws (isWsChar_false_of_ge48 h48)]
  split
  all_goals simp_all +decide

theorem parse_rt : ∀ fuel : Nat,
    (∀ (j : Json) (rest : List Char), jfuel j ≤ fuel →
      (∀ y, rest.head? = some y → isDigitC y = false) →
      parseVal fuel (dumpChars j ++ rest) = some (canon j, rest)) ∧
    (∀ (xs : List Json) (rest : List Char), xs ≠ [] → jfuelL xs ≤ fuel →
      parseElems fuel (List.intercalate [','] (dumpList xs) ++ ']' :: rest) =
        some (canonList xs, rest)) ∧
    (∀ (kvs : List (String × Json)) (rest : List Char), kvs ≠ [] → jfuelM kvs ≤ fuel →
      parseMembers fuel
        (List.intercalate [','] ((dumpMembers kvs).map renderMember) ++ '}' :: rest) =
        some (canonMembers kvs, rest)) := by
  intro fuel
  induction fuel with
  | zero =>
      refine ⟨fun j rest hj _ => absurd hj (by have := jfuel_pos j; omega),
        fun xs rest hne hl => ?_, fun kvs rest hne hm => ?_⟩
      · cases xs with
        | nil => exact absurd rfl hne
        | cons x xs => rw [jfuelL] at hl; omega
      · cases kvs with
        | nil => exact absurd rfl hne
        | cons kv kvs => obtain ⟨k, v⟩ := kv; rw [jfuelM] at hm; omega
  | succ f ih =>
      obtain ⟨ihV, ihE, ihM⟩ := ih
      refine ⟨?_, ?_, ?_⟩
      · -- parseVal
        intro j rest hj hrest
        cases j with
        | null => simp +decide [dumpChars, parseVal, skipWs, isWsChar, canon]
        | bool b => cases b <;> simp +decide [dumpChars, parseVal, skipWs, isWsChar, canon]
        | int n =>
            cases n with
            | ofNat m =>
                rcases hd : natDigits m with _ | ⟨c, cs⟩
                · exact absurd hd (natDigits_ne_nil m)
                · have hdig := natDigits_all_digits m c (hd ▸ List.mem_cons_self c cs)
                  have hn := @parseNat_digits m rest hrest
                  rw [show dumpChars (Json.int (Int.ofNat m)) = natDigits m from rfl, hd,
                    List.cons_append, parseVal_digit_head f c (cs ++ rest) hdig.1 hdig.2,
                    ← List.cons_append, ← hd, hn]
                  rfl
            | negSucc m =>
                have hn := @parseNat_digits (m + 1) rest hrest
                rw [show dumpChars (Json.int (Int.negSucc m)) = '-' :: natDigits (m + 1) from rfl,
                  List.cons_append]
                simp +decide [parseVal, skipWs, isWsChar, hn, canon, Int.negSucc_eq]
        | str s =>
            have hb := escBody_length s.data
            have hs := parseStrBody_rt s.data ((escBody s ++ '"' :: rest).length + 1) rest
              (by rw [List.length_append]
                  have hbb : s.data.length ≤ (escBody s).length := escBody_length s.data
                  omega)
            rw [show dumpChars (Json.str s) = ('"' :: escBody s) ++ ['"'] from rfl,
              List.append_assoc, List.cons_append, List.singleton_append]
            simp only [parseVal, skipWs_not_ws (show isWsChar '"' = false from by decide)]
            rw [show (s.data.map escapeChar).flatten = escBody s from rfl] at hs
            rw [hs]
            rfl
        | arr xs =>
            cases xs with
            | nil =>
                simp +decide [dumpChars, dumpList, parseVal, skipWs, isWsChar, canon, canonList,
                  List.intercalate, List.intersperse]
            | cons x xs' =>
                have hE := ihE (x :: xs') rest (by simp) (by rw [jfuel] at hj; omega)
                obtain ⟨c, cs, hdx, hws, hbr, hbc⟩ := dump_head x
                have hskip : skipWs (List.intercalate [','] (dumpList (x :: xs')) ++ ']' :: rest)
                    = List.intercalate [','] (dumpList (x :: xs')) ++ ']' :: rest := by
                  obtain ⟨T, hT⟩ := intercalate_comma_head (dumpChars x) (dumpList xs')
                  rw [show dumpList (x :: xs') = dumpChars x :: dumpList xs' from rfl, hT, hdx]
                  simp only [List.cons_append]
                  exact skipWs_not_ws hws
                rw [show dumpChars (Json.arr (x :: xs')) =
                    ('[' :: List.intercalate [','] (dumpList (x :: xs'))) ++ [']'] from rfl,
                  List.append_assoc, List.cons_append, List.singleton_append]
                simp only [parseVal, skipWs_not_ws (show isWsChar '[' = false from by decide)]
                rw [hskip]
                split
                · rename_i heq
                  exfalso
                  obtain ⟨T, hT⟩ := intercalate_comma_head (dumpChars x) (dumpList xs')
                  rw [show dumpList (x :: xs') = dumpChars x :: dumpList xs' from rfl, hT, hdx] at heq
                  simp only [List.cons_append, List.cons.injEq] at heq
                  exact hbr heq.1
                · rw [hE]
                  rfl
        | obj kvs =>
            cases kvs with
            | nil =>
                simp +decide [dumpChars, dumpMembers, parseVal, skipWs, isWsChar, canon, canonMembers,
                  List.intercalate, List.intersperse, List.insertionSort]
            | cons kv kvs' =>
                obtain ⟨k, v⟩ := kv
                have hmf : jfuelM ((k, v) :: kvs') ≤ f := by rw [jfuel] at hj; omega
                have hperm := List.perm_insertionSort keyLE ((k, v) :: kvs')
                have hSKne : List.insertionSort keyLE ((k, v) :: kvs') ≠ [] := by
                  intro h0
                  have := hperm.length_eq
                  rw [h0] at this
                  simp at this
                have hM2 := ihM (List.insertionSort keyLE ((k, v) :: kvs')) rest hSKne
                  (by rw [jfuelM_perm hperm]; exact hmf)
                rcases hSK : List.insertionSort keyLE ((k, v) :: kvs') with _ | ⟨m, SK'⟩
                · exact absurd hSK hSKne
                · obtain ⟨k2, v2⟩ := m
                  rw [hSK] at hM2
                  obtain ⟨T, hT⟩ := intercalate_comma_head (renderMember (k2, dumpChars v2))
                    ((dumpMembers SK').map renderMember)
                  have hshape : List.intercalate [',']
                        ((dumpMembers ((k2, v2) :: SK')).map renderMember) ++ '}' :: rest
                      = '"' :: ((escBody k2 ++ ('"' :: ':' :: dumpChars v2)) ++ (T ++ '}' :: rest)) := by
                    rw [show (dumpMembers ((k2, v2) :: SK')).map renderMember
                        = renderMember (k2, dumpChars v2) :: (dumpMembers SK').map renderMember
                        from rfl, hT, renderMember_cons]
                    simp [List.append_assoc]
                  rw [show dumpChars (Json.obj ((k, v) :: kvs')) =
                      ('{' :: List.intercalate [','] ((List.insertionSort keyLE
                        (dumpMembers ((k, v) :: kvs'))).map renderMember)) ++ ['}'] from rfl,
                    List.append_assoc, List.cons_append, List.singleton_append,
                    ← dumpMembers_insertionSort, hSK]
                  simp only [parseVal, skipWs_not_ws (show isWsChar '{' = false from by decide)]
                  rw [hshape]
                  simp only [skipWs_not_ws (show isWsChar '"' = false from by decide)]
                  rw [← hshape, hM2]
                  split
                  · rename_i heq
                    rw [hshape] at heq
                    simp at heq
                  · rw [show canon (Json.obj ((k, v) :: kvs'))
                        = Json.obj (List.insertionSort keyLE (canonMembers ((k, v) :: kvs'))) from rfl,
                      ← canonMembers_insertionSort, hSK]
                    rfl
      · -- parseElems
        intro xs rest hne hl
        cases xs with
        | nil => exact absurd rfl hne
        | cons x xs' =>
            have hjx : jfuel x ≤ f := by rw [jfuelL] at hl; omega
            cases xs' with
            | nil =>
                have hV := ihV x (']' :: rest) hjx
                  (by intro y hy; simp at hy; subst hy; decide)
                rw [show dumpList [x] = [dumpChars x] from rfl, intercalate_single]
                simp +decide [parseElems, hV, skipWs, isWsChar, canonList]
            | cons y t =>
                have hV := ihV x
                  (',' :: (List.intercalate [','] (dumpList (y :: t)) ++ ']' :: rest)) hjx
                  (by intro z hz; simp at hz; subst hz; decide)
                have hE := ihE (y :: t) rest (by simp) (by rw [jfuelL] at hl; omega)
                rw [show dumpList (x :: y :: t) = dumpChars x :: dumpChars y :: dumpList t from rfl,
                  intercalate_comma_cons₂,
                  show dumpChars y :: dumpList t = dumpList (y :: t) from rfl,
                  List.append_assoc, List.cons_append]
                simp +decide [parseElems, hV, hE, skipWs, isWsChar, canonList]
      · -- parseMembers
        intro kvs rest hne hm
        cases kvs with
        | nil => exact absurd rfl hne
        | cons kv kvs' =>
            obtain ⟨k, v⟩ := kv
            have hjv : jfuel v ≤ f := by rw [jfuelM] at hm; omega
            cases kvs' with
            | nil =>
                have hV := ihV v ('}' :: rest) hjv
                  (by intro y hy; simp at hy; subst hy; decide)
                have hSB := parseStrBody_rt k.data
                  ((escBody k ++ '"' :: ':' :: (dumpChars v ++ '}' :: rest)).length + 1)
                  (':' :: (dumpChars v ++ '}' :: rest))
                  (by rw [List.length_append]
                      have hbb : k.data.length ≤ (escBody k).length := escBody_length k.data
                      omega)
                rw [show (k.data.map escapeChar).flatten = escBody k from rfl] at hSB
                rw [show (dumpMembers [(k, v)]).map renderMember
                    = [renderMember (k, dumpChars v)] from rfl,
                  intercalate_single, renderMember_cons]
                simp only [List.cons_append, List.append_assoc]
                simp only [parseMembers,
                  skipWs_not_ws (show isWsChar '"' = false from by decide)]
                rw [hSB]
                simp +decide [skipWs, isWsChar, hV, canonMembers]
            | cons z t =>
                obtain ⟨k3, v3⟩ := z
                have hV := ihV v
                  (',' :: (List.intercalate [',']
                    ((dumpMembers ((k3, v3) :: t)).map renderMember) ++ '}' :: rest)) hjv
                  (by intro y hy; simp at hy; subst hy; decide)
                have hM2 := ihM ((k3, v3) :: t) rest (by simp)
                  (by rw [jfuelM] at hm; omega)
                have hSB := parseStrBody_rt k.data
                  ((escBody k ++ '"' :: ':' :: (dumpChars v ++ ',' ::
                    (List.intercalate [',']
                      ((dumpMembers ((k3, v3) :: t)).map renderMember) ++ '}' :: rest))).length + 1)
                  (':' :: (dumpChars v ++ ',' ::
                    (List.intercalate [',']
                      ((dumpMembers ((k3, v3) :: t)).map renderMember) ++ '}' :: rest)))
                  (by rw [List.length_append]
                      have hbb : k.data.length ≤ (escBody k).length := escBody_length k.data
                      omega)
                rw [show (k.data.map escapeChar).flatten = escBody k from rfl] at hSB
                rw [show (dumpMembers ((k, v) :: (k3, v3) :: t)).map renderMember
                    = renderMember (k, dumpChars v) :: renderMember (k3, dumpChars v3)
                      :: (dumpMembers t).map renderMember from rfl,
                  intercalate_comma_cons₂,
                  show renderMember (k3, dumpChars v3) :: (dumpMembers t).map renderMember
                    = (dumpMembers ((k3, v3) :: t)).map renderMember from rfl,
                  renderMember_cons]
                simp only [List.cons_append, List.append_assoc]
                simp only [parseMembers,
                  skipWs_not_ws (show isWsChar '"' = false from by decide)]
                rw [hSB]
                simp +decide [skipWs, isWsChar, hV, hM2, canonMembers]

theorem escapeString_length (s : String) : (escapeString s).length = (escBody s).length + 2 := by
  simp [escapeString, List.length_append]

theorem renderMember_length (p : String × List Char) :
    (renderMember p).length = (escBody p.1).length + p.2.length + 3 := by
  simp [renderMember, escapeString, List.length_append]
  omega

theorem mlist_fuel_le : ∀ ms : List (String × List Char),
    (ms.map fun p => p.2.length + 1).sum ≤
      (List.intercalate [','] (ms.map renderMember)).length + 1
  | [] => by simp [List.intercalate]
  | [p] => by
      rw [show [p].map renderMember = [renderMember p] from rfl, intercalate_single]
      have := renderMember_length p
      simp only [List.map_cons, List.map_nil, List.sum_cons, List.sum_nil]
      omega
  | p :: q :: t => by
      have ih := mlist_fuel_le (q :: t)
      rw [show (p :: q :: t).map renderMember
          = renderMember p :: renderMember q :: t.map renderMember from rfl,
        intercalate_comma_cons₂,
        show renderMember q :: t.map renderMember = (q :: t).map renderMember from rfl]
      have hr := renderMember_length p
      simp only [List.map_cons, List.sum_cons, List.length_append, List.length_cons] at *
      omega

theorem jfuelL_le : ∀ xs : List Json, (∀ x ∈ xs, jfuel x ≤ (dumpChars x).length) →
    jfuelL xs ≤ (List.intercalate [','] (dumpList xs)).length + 1
  | [] => by intro _; simp [jfuelL, List.intercalate]
  | [x] => by
      intro h
      rw [show dumpList [x] = [dumpChars x] from rfl, intercalate_single, jfuelL, jfuelL]
      have := h x (List.mem_cons_self _ _)
      omega
  | x :: y :: t => by
      intro h
      have ih := jfuelL_le (y :: t) (fun z hz => h z (List.mem_cons_of_mem _ hz))
      rw [show dumpList (x :: y :: t) = dumpChars x :: dumpChars y :: dumpList t from rfl,
        intercalate_comma_cons₂,
        show dumpChars y :: dumpList t = dumpList (y :: t) from rfl, jfuelL]
      have := h x (List.mem_cons_self _ _)
      simp only [List.length_append, List.length_cons]
      omega

theorem jfuel_le_dump : ∀ j : Json, jfuel j ≤ (dumpChars j).length := by
  intro j
  induction j using json_ind with
  | hnull => decide
  | hbool b => cases b <;> decide
  | hint n =>
      rw [jfuel]
      cases n with
      | ofNat m =>
          have := List.length_pos.mpr (natDigits_ne_nil m)
          simpa [dumpChars, pyIntChars] using this
      | negSucc m => simp [dumpChars, pyIntChars]
  | hstr s =>
      rw [jfuel, show dumpChars (Json.str s) = escapeString s from rfl, escapeString_length]
      omega
  | harr xs ih =>
      rw [jfuel, show dumpChars (Json.arr xs)
          = ('[' :: List.intercalate [','] (dumpList xs)) ++ [']'] from rfl]
      have := jfuelL_le xs ih
      simp only [List.length_append, List.length_cons]
      omega
  | hobj kvs ih =>
      rw [jfuel, show dumpChars (Json.obj kvs)
          = ('{' :: List.intercalate [',']
              ((List.insertionSort keyLE (dumpMembers kvs)).map renderMember)) ++ ['}'] from rfl]
      have h1 := jfuelM_eq_sum kvs
      have h2 : (kvs.map fun kv => jfuel kv.2 + 1).sum ≤
          (kvs.map fun kv => (dumpChars kv.2).length + 1).sum :=
        List.sum_le_sum fun kv hkv => by have := ih kv hkv; omega
      have h3 : (kvs.map fun kv => (dumpChars kv.2).length + 1).sum
          = ((dumpMembers kvs).map fun p => p.2.length + 1).sum := by
        rw [dumpMembers_eq_map, List.map_map]
        rfl
      have h4 : ((dumpMembers kvs).map fun p => p.2.length + 1).sum
          = ((List.insertionSort keyLE (dumpMembers kvs)).map fun p => p.2.length + 1).sum :=
        (List.Perm.sum_eq ((List.perm_insertionSort keyLE (dumpMembers kvs)).map _)).symm
      have h5 := mlist_fuel_le (List.insertionSort keyLE (dumpMembers kvs))
      simp only [List.length_append, List.length_cons]
      omega

theorem json_loads_canonical (j : Json) : json_loads (_canonical_json j) = some (canon j) := by
  have hlen : jfuel j ≤ (dumpChars j ++ ['\n']).length + 1 := by
    have := jfuel_le_dump j
    rw [List.length_append]
    omega
  have h := (parse_rt ((dumpChars j ++ ['\n']).length + 1)).1 j ['\n'] hlen
    (by intro y hy; simp at hy; subst hy; decide)
  rw [json_loads, show (_canonical_json j).data = dumpChars j ++ ['\n'] from rfl, h]
  simp [skipWs, isWsChar]

theorem escapeChar_high {c : Char} (h : 128 ≤ c.toNat) : escapeChar c = [c] := by
  have h1 : c ≠ '\\' := by rintro rfl; exact absurd h (by decide)
  have h2 : c ≠ '"' := by rintro rfl; exact absurd h (by decide)
  have h3 : c ≠ '\n' := by rintro rfl; exact absurd h (by decide)
  have h4 : c ≠ '\t' := by rintro rfl; exact absurd h (by decide)
  have h5 : c ≠ '\r' := by rintro rfl; exact absurd h (by decide)
  rw [escapeChar, if_neg h1, if_neg h2, if_neg h3, if_neg h4, if_neg h5,
    if_neg (by omega), if_neg (by omega), if_neg (by omega)]

/-- C6: the canonical encoder (`json.dumps(obj, sort_keys=True,
separators=(",", ":"), ensure_ascii=False) + "\n"`) is a deterministic byte
encoding: (1) every object's members are emitted as the `keyLE`-insertion-sort
of its members — a permutation of them that is sorted under `keyLE`, which is
exactly code-point lexicographic order on the key's characters; (2) every
emitted character is at least U+0020 — so no tab, newline or carriage return
appears inside the document — and a space appears only when some string datum
of the value contains one, i.e. there is no insignificant whitespace; (3)
non-ASCII characters are passed through unescaped; (4) the output contains
exactly one `'\n'`, at its end; (5) two semantically-equal well-formed
structured values — same key/value multisets in any member order — encode to
identical bytes; and (6) parsing a canonical encoding with `json.loads`
succeeds, and re-encoding the parse reproduces the identical bytes (canonical
idempotence). -/
theorem claim_C6_canonical_encoder :
    (∀ kvs : List (String × Json),
        dumpChars (Json.obj kvs) =
          '{' :: List.intercalate [',']
            ((List.insertionSort keyLE (dumpMembers kvs)).map renderMember) ++ ['}'] ∧
        (List.insertionSort keyLE (dumpMembers kvs)).Sorted keyLE ∧
        (List.insertionSort keyLE (dumpMembers kvs)).Perm (dumpMembers kvs)) ∧
    (∀ p q : String × List Char, keyLE p q ↔ p.1.data ≤ q.1.data) ∧
    (∀ (j : Json) (c : Char), c ∈ dumpChars j →
        32 ≤ c.toNat ∧ (jsonNoSpaces j = true → c ≠ ' ')) ∧
    (∀ c : Char, 128 ≤ c.toNat → escapeChar c = [c]) ∧
    (∀ j : Json, (_canonical_json j).data.count '\n' = 1 ∧
        (_canonical_json j).data.getLast? = some '\n') ∧
    (∀ j₁ j₂ : Json, wfJson j₁ = true → JEquiv j₁ j₂ →
        _canonical_json j₁ = _canonical_json j₂) ∧
    (∀ j : Json, json_loads (_canonical_json j) = some (canon j) ∧
        _canonical_json (canon j) = _canonical_json j) := by
  refine ⟨fun kvs => ⟨rfl, insertionSort_keyLE_sorted _, List.perm_insertionSort _ _⟩,
    fun p q => pyStrLe_iff_le, dump_chars_master, fun c h => escapeChar_high h,
    fun j => ⟨?_, ?_⟩, fun j₁ j₂ hwf he => ?_, fun j => ⟨json_loads_canonical j, ?_⟩⟩
  · rw [show (_canonical_json j).data = dumpChars j ++ ['\n'] from rfl, List.count_append,
      List.count_eq_zero.mpr (newline_not_mem_dump j)]
    rfl
  · rw [show (_canonical_json j).data = dumpChars j ++ ['\n'] from rfl]
    exact List.getLast?_concat _
  · show String.mk (dumpChars j₁ ++ ['\n']) = String.mk (dumpChars j₂ ++ ['\n'])
    rw [dump_jequiv j₁ j₂ hwf he]
  · show String.mk (dumpChars (canon j) ++ ['\n']) = String.mk (dumpChars j ++ ['\n'])
    rw [dump_canon j]

/-- C6 witness: the permutation-invariance conjunct applied at the concrete
well-formed objects `{"b": null, "a": 1}` and `{"a": 1, "b": null}`. -/
theorem claim_C6_canonical_encoder_witness :
    _canonical_json (Json.obj [("b", Json.null), ("a", Json.int 1)])
      = _canonical_json (Json.obj [("a", Json.int 1), ("b", Json.null)]) := by
  have hequiv : JEquiv (Json.obj [("b", Json.null), ("a", Json.int 1)])
      (Json.obj [("a", Json.int 1), ("b", Json.null)]) := by
    rw [JEquiv]
    refine ⟨[("b", Json.null), ("a", Json.int 1)], rfl, ?_, List.Perm.swap _ _ _⟩
    intro k v k' v' h
    simp only [List.zip_cons_cons, List.zip_nil_left, List.mem_cons, List.not_mem_nil, or_false,
      Prod.mk.injEq] at h
    rcases h with ⟨⟨rfl, rfl⟩, ⟨rfl, rfl⟩⟩ | ⟨⟨rfl, rfl⟩, ⟨rfl, rfl⟩⟩
    · exact ⟨rfl, by rw [JEquiv]; trivial⟩
    · exact ⟨rfl, by rw [JEquiv]⟩
  exact claim_C6_canonical_encoder.2.2.2.2.2.1 _ _ (by decide) hequiv
